import Mathlib

/-! Verification of the OpenSubdiv `Far::internal` stencil builder
(`opensubdiv/far/stencilBuilder.cpp`).

Modelling conventions:
* C++ `float` weights are modelled as exact rationals (`ℚ`); IEEE rounding is
  outside the model, all weight arithmetic is exact.
* The non-interleaved `std::vector` columns are Lean `List`s.  A read that
  would be out of bounds in C++ (undefined behaviour there) is totalised with
  `List.getD _ _ 0`; an out-of-bounds `List.set` is a no-op.
* `_lastOffset` is a C++ `int` that the constructor can set to `-1`
  (when `coarseVerts = 0`), so it is modelled as `Int`.  The indexing
  expression `_dests[lastOffset]` is modelled as an `Option`-valued lookup.
* `StencilBuilder::GetNumVertsInStencil` performs `size_t` arithmetic where
  unsigned wrap-around matters; it is modelled with an explicit `% 2 ^ 64`
  and returns an `Option` whose `none` marks an out-of-bounds vector read.
* The C++ engine is a template over the weight payload (`float` /
  `PointDerivWeight`) and its accumulator; the two instantiations are
  modelled as the `...Scalar` and `...Deriv` function families.
-/

/-- Triple of (point, du, dv) weights, from `struct PointDerivWeight`. -/
structure PointDerivWeight where
  p : ℚ
  du : ℚ
  dv : ℚ
deriving DecidableEq

/-- Elementwise product, from `PointDerivWeight::operator*`. -/
def pdMul (a b : PointDerivWeight) : PointDerivWeight :=
  ⟨a.p * b.p, a.du * b.du, a.dv * b.dv⟩

/-- The broadcasting conversion `PointDerivWeight(float w)`. -/
def pdOfScalar (w : ℚ) : PointDerivWeight := ⟨w, w, w⟩

/-- State of `class WeightTable`: the flat storage columns, the per-stencil
index data, and the acceleration members. -/
structure WeightTable where
  dests : List Nat
  sources : List Nat
  weights : List ℚ
  duWeights : List ℚ
  dvWeights : List ℚ
  indices : List Nat
  sizes : List Nat
  size : Nat
  lastOffset : Int
  coarseVertCount : Nat
  compactWeights : Bool
deriving DecidableEq

/-- `std::vector<int>::resize (n)` with zero value-initialisation. -/
def resizeZero (l : List Nat) (n : Nat) : List Nat :=
  if l.length ≤ n then l ++ List.replicate (n - l.length) 0 else l.take n

/-- The constructor `WeightTable::WeightTable (coarseVerts,
genCtrlVertStencils, compactWeights)`.  The `reserve` capacity hint has no
observable effect and is not modelled.  With `genCtrlVertStencils` the table
is pre-populated with the trivial control-vertex stencils and
`_lastOffset = _size - 1` (note: `-1` when `coarseVerts = 0`). -/
def WeightTable.init (coarseVerts : Nat) (genCtrlVertStencils compactWeights : Bool) :
    WeightTable :=
  if genCtrlVertStencils then
    { dests := List.range coarseVerts
      sources := List.range coarseVerts
      weights := List.replicate coarseVerts 1
      duWeights := []
      dvWeights := []
      indices := List.range coarseVerts
      sizes := List.replicate coarseVerts 1
      size := coarseVerts
      lastOffset := (coarseVerts : Int) - 1
      coarseVertCount := coarseVerts
      compactWeights := compactWeights }
  else
    { dests := []
      sources := []
      weights := []
      duWeights := []
      dvWeights := []
      indices := []
      sizes := []
      size := 0
      lastOffset := 0
      coarseVertCount := coarseVerts
      compactWeights := compactWeights }

/-- The C++ expression `_dests[i]` for an `int` index `i`, as a defined
lookup (`none` where C++ indexing would be out of bounds). -/
def WeightTable.destAt (tbl : WeightTable) (i : Int) : Option Nat :=
  if 0 ≤ i then tbl.dests[i.toNat]? else none

/-- The scan loop of `WeightTable::merge`:
`for (int i = lastOffset; i < tableSize; i++) if (_sources[i] == src) ...`,
returning the first matching index. -/
def scanFrom (sources : List Nat) (src start stop : Nat) : Option Nat :=
  (List.range' start (stop - start)).find? (fun i => sources.getD i 0 == src)

/-- `WeightTable::add`, instantiated for the scalar accumulator
(`ScalarAccumulator::PushBack` pushes only onto `_weights`). -/
def WeightTable.addScalar (tbl : WeightTable) (src dst : Nat) (weight : ℚ) :
    WeightTable :=
  let tbl1 :=
    if tbl.dests.isEmpty ∨ tbl.dests.getLast? ≠ some dst then
      let tbl0 :=
        if tbl.indices.length < dst + 1 then
          { tbl with indices := resizeZero tbl.indices (dst + 1)
                     sizes := resizeZero tbl.sizes (dst + 1) }
        else tbl
      { tbl0 with indices := tbl0.indices.set dst tbl0.sources.length
                  sizes := tbl0.sizes.set dst 0
                  lastOffset := (tbl0.sources.length : Int) }
    else tbl
  { tbl1 with size := tbl1.size + 1
              sizes := tbl1.sizes.set dst (tbl1.sizes.getD dst 0 + 1)
              dests := tbl1.dests ++ [dst]
              sources := tbl1.sources ++ [src]
              weights := tbl1.weights ++ [weight] }

/-- `WeightTable::add`, instantiated for the point-derivative accumulator
(`PointDerivAccumulator::PushBack` pushes onto `_weights`, `_duWeights`
and `_dvWeights`). -/
def WeightTable.addDeriv (tbl : WeightTable) (src dst : Nat) (weight : PointDerivWeight) :
    WeightTable :=
  let tbl1 :=
    if tbl.dests.isEmpty ∨ tbl.dests.getLast? ≠ some dst then
      let tbl0 :=
        if tbl.indices.length < dst + 1 then
          { tbl with indices := resizeZero tbl.indices (dst + 1)
                     sizes := resizeZero tbl.sizes (dst + 1) }
        else tbl
      { tbl0 with indices := tbl0.indices.set dst tbl0.sources.length
                  sizes := tbl0.sizes.set dst 0
                  lastOffset := (tbl0.sources.length : Int) }
    else tbl
  { tbl1 with size := tbl1.size + 1
              sizes := tbl1.sizes.set dst (tbl1.sizes.getD dst 0 + 1)
              dests := tbl1.dests ++ [dst]
              sources := tbl1.sources ++ [src]
              weights := tbl1.weights ++ [weight.p]
              duWeights := tbl1.duWeights ++ [weight.du]
              dvWeights := tbl1.dvWeights ++ [weight.dv] }

/-- `WeightTable::merge`, scalar instantiation.
`ScalarAccumulator::Add (i, w)` is `_weights[i] += w`. -/
def WeightTable.mergeScalar (tbl : WeightTable) (src dst : Nat)
    (weight weightFactor : ℚ) (lastOffset : Int) (tableSize : Nat) : WeightTable :=
  if tbl.compactWeights = true ∧ tbl.dests ≠ [] ∧ tbl.destAt lastOffset = some dst then
    match scanFrom tbl.sources src lastOffset.toNat tableSize with
    | some i =>
        { tbl with weights :=
            tbl.weights.set i (tbl.weights.getD i 0 + weight * weightFactor) }
    | none => tbl.addScalar src dst (weight * weightFactor)
  else
    tbl.addScalar src dst (weight * weightFactor)

/-- `WeightTable::merge`, point-derivative instantiation.
`PointDerivAccumulator::Add (i, w)` accumulates all three channels. -/
def WeightTable.mergeDeriv (tbl : WeightTable) (src dst : Nat)
    (weight weightFactor : PointDerivWeight) (lastOffset : Int) (tableSize : Nat) :
    WeightTable :=
  if tbl.compactWeights = true ∧ tbl.dests ≠ [] ∧ tbl.destAt lastOffset = some dst then
    match scanFrom tbl.sources src lastOffset.toNat tableSize with
    | some i =>
        { tbl with
            weights := tbl.weights.set i
              (tbl.weights.getD i 0 + (pdMul weight weightFactor).p)
            duWeights := tbl.duWeights.set i
              (tbl.duWeights.getD i 0 + (pdMul weight weightFactor).du)
            dvWeights := tbl.dvWeights.set i
              (tbl.dvWeights.getD i 0 + (pdMul weight weightFactor).dv) }
    | none => tbl.addDeriv src dst (pdMul weight weightFactor)
  else
    tbl.addDeriv src dst (pdMul weight weightFactor)

/-- The resolution loop of `WeightTable::AddWithWeight` (scalar): for
`i` in `[start, start+len)` merge `(_sources[i], weights.Get(i))` into
`dest`, where `_lastOffset` and `_size` are re-read from the members at
each call. -/
def WeightTable.resolveLoopScalar (dst : Nat) (weightFactor : ℚ) :
    Nat → Nat → WeightTable → WeightTable
  | _, 0, t => t
  | start, len + 1, t =>
      WeightTable.resolveLoopScalar dst weightFactor (start + 1) len
        (t.mergeScalar (t.sources.getD start 0) dst (t.weights.getD start 0)
          weightFactor t.lastOffset t.size)

/-- `WeightTable::AddWithWeight`, scalar instantiation: a coarse `src` is
merged directly (with secondary factor `W(1.0)`); otherwise `src`'s stored
range `[_indices[src], _indices[src] + _sizes[src])` is resolved. -/
def WeightTable.addWithWeightScalar (tbl : WeightTable) (src dst : Nat) (weight : ℚ) :
    WeightTable :=
  if src < tbl.coarseVertCount then
    tbl.mergeScalar src dst weight 1 tbl.lastOffset tbl.size
  else
    WeightTable.resolveLoopScalar dst weight (tbl.indices.getD src 0)
      (tbl.sizes.getD src 0) tbl

/-- The resolution loop of `WeightTable::AddWithWeight`, point-derivative
instantiation; `PointDerivAccumulator::Get (i)` reads all three channels. -/
def WeightTable.resolveLoopDeriv (dst : Nat) (weightFactor : PointDerivWeight) :
    Nat → Nat → WeightTable → WeightTable
  | _, 0, t => t
  | start, len + 1, t =>
      WeightTable.resolveLoopDeriv dst weightFactor (start + 1) len
        (t.mergeDeriv (t.sources.getD start 0) dst
          ⟨t.weights.getD start 0, t.duWeights.getD start 0, t.dvWeights.getD start 0⟩
          weightFactor t.lastOffset t.size)

/-- `WeightTable::AddWithWeight`, point-derivative instantiation. -/
def WeightTable.addWithWeightDeriv (tbl : WeightTable) (src dst : Nat)
    (weight : PointDerivWeight) : WeightTable :=
  if src < tbl.coarseVertCount then
    tbl.mergeDeriv src dst weight (pdOfScalar 1) tbl.lastOffset tbl.size
  else
    WeightTable.resolveLoopDeriv dst weight (tbl.indices.getD src 0)
      (tbl.sizes.getD src 0) tbl

/-- `StencilBuilder::GetNumVerticesTotal`: `GetWeights().size()`. -/
def GetNumVerticesTotal (tbl : WeightTable) : Nat := tbl.weights.length

/-- `StencilBuilder::GetNumVertsInStencil (size_t stencilIndex)`.  The guard
`stencilIndex > GetSizes().size() - 1` is `size_t` arithmetic, so with an
empty `sizes` vector `size() - 1` wraps around to `2 ^ 64 - 1`.  A `none`
result marks the out-of-bounds `GetSizes()[stencilIndex]` read (undefined
behaviour in C++). -/
def GetNumVertsInStencil (tbl : WeightTable) (stencilIndex : Nat) : Option Nat :=
  if stencilIndex > (tbl.sizes.length + (2 ^ 64 - 1)) % 2 ^ 64 then some 0
  else tbl.sizes[stencilIndex]?

/-- Modelled from the spec: the external `Far::Stencil` input type is not
part of this repository's sources; per the spec it is "any caller-supplied
object exposing a contribution count, a coarse-index array, and a weight
array" (`GetSizePtr`, `GetVertexIndices`, `GetWeights`). -/
structure Stencil where
  size : Nat
  indices : List Nat
  weights : List ℚ

/-- The facade entry `StencilBuilder::Index::AddWithWeight (Index, float)`:
zero weights are dropped, otherwise the scalar engine is invoked with the
handle indices. -/
def indexAddWithWeight (tbl : WeightTable) (srcIndex dstIndex : Nat) (weight : ℚ) :
    WeightTable :=
  if weight = 0 then tbl
  else tbl.addWithWeightScalar srcIndex dstIndex weight

/-- The entry loop of `StencilBuilder::Index::AddWithWeight (Stencil, float)`
over positions `[start, start+len)` of the external stencil, skipping
zero-weight entries. -/
def stencilAddLoop (st : Stencil) (dstIndex : Nat) (weight : ℚ) :
    Nat → Nat → WeightTable → WeightTable
  | _, 0, t => t
  | start, len + 1, t =>
      let w := st.weights.getD start 0
      if w = 0 then stencilAddLoop st dstIndex weight (start + 1) len t
      else
        stencilAddLoop st dstIndex weight (start + 1) len
          (t.addWithWeightScalar (st.indices.getD start 0) dstIndex (weight * w))

/-- `StencilBuilder::Index::AddWithWeight (Stencil, float)`. -/
def stencilAddWithWeight (tbl : WeightTable) (st : Stencil) (dstIndex : Nat)
    (weight : ℚ) : WeightTable :=
  if weight = 0 then tbl
  else stencilAddLoop st dstIndex weight 0 st.size tbl

/-- The entry loop of
`StencilBuilder::Index::AddWithWeight (Stencil, float, float, float)`;
each non-zero entry contributes `PointDerivWeight(weight, du, dv) * w`. -/
def stencilAddLoopDeriv (st : Stencil) (dstIndex : Nat) (weight du dv : ℚ) :
    Nat → Nat → WeightTable → WeightTable
  | _, 0, t => t
  | start, len + 1, t =>
      let w := st.weights.getD start 0
      if w = 0 then stencilAddLoopDeriv st dstIndex weight du dv (start + 1) len t
      else
        stencilAddLoopDeriv st dstIndex weight du dv (start + 1) len
          (t.addWithWeightDeriv (st.indices.getD start 0) dstIndex
            (pdMul ⟨weight, du, dv⟩ (pdOfScalar w)))

/-- `StencilBuilder::Index::AddWithWeight (Stencil, float, float, float)`:
a no-op when `weight`, `du` and `dv` are all zero. -/
def stencilAddWithWeightDeriv (tbl : WeightTable) (st : Stencil) (dstIndex : Nat)
    (weight du dv : ℚ) : WeightTable :=
  if weight = 0 ∧ du = 0 ∧ dv = 0 then tbl
  else stencilAddLoopDeriv st dstIndex weight du dv 0 st.size tbl

/-- A trace of scalar engine contributions `(src, dest, weight)`. -/
def runOps : WeightTable → List (Nat × Nat × ℚ) → WeightTable
  | tbl, [] => tbl
  | tbl, (s, d, w) :: ops => runOps (tbl.addWithWeightScalar s d w) ops

/-- A source reference is finalized: its stored range lies inside the flat
storage.  This is the state-level content of the dependency-order contract
("a vertex is only used as `src` after its own stencil is fully
finalized"). -/
def SrcFinalized (tbl : WeightTable) (src : Nat) : Prop :=
  tbl.indices.getD src 0 + tbl.sizes.getD src 0 ≤ tbl.sources.length

instance (tbl : WeightTable) (src : Nat) : Decidable (SrcFinalized tbl src) := by
  unfold SrcFinalized; infer_instance

/-- The dependency-order contract along a trace: each contribution's source
is a coarse vertex or is finalized in the state where it is used. -/
def ContractOK : WeightTable → List (Nat × Nat × ℚ) → Prop
  | _, [] => True
  | tbl, (s, d, w) :: ops =>
      (s < tbl.coarseVertCount ∨ SrcFinalized tbl s) ∧
      ContractOK (tbl.addWithWeightScalar s d w) ops

/-- Spec-side measurement: the sum of the stored weights at positions
`[start, start+len)` whose source entry is the coarse vertex `c`. -/
def weightSumFrom (sources : List Nat) (weights : List ℚ) (c start : Nat) :
    Nat → ℚ
  | 0 => 0
  | len + 1 =>
      weightSumFrom sources weights c start len +
        (if sources.getD (start + len) 0 = c then weights.getD (start + len) 0 else 0)

/-- Spec-side measurement: the total stored weight of coarse vertex `c` in
destination `d`'s stencil range. -/
def stencilWeight (tbl : WeightTable) (d c : Nat) : ℚ :=
  weightSumFrom tbl.sources tbl.weights c (tbl.indices.getD d 0) (tbl.sizes.getD d 0)

/-- Spec-side measurement: the coarse weight that the contribution of source
`src` algebraically stands for — an indicator for a coarse `src`, and the
stored (already resolved) stencil of `src` otherwise. -/
def resolvedWeight (tbl : WeightTable) (src c : Nat) : ℚ :=
  if src < tbl.coarseVertCount then (if src = c then 1 else 0)
  else stencilWeight tbl src c

/-- Every entry of the flat `sources` column is a coarse vertex. -/
def CoarseOnly (tbl : WeightTable) : Prop :=
  ∀ s ∈ tbl.sources, s < tbl.coarseVertCount

instance (tbl : WeightTable) : Decidable (CoarseOnly tbl) := by
  unfold CoarseOnly; infer_instance

/-- The flat-array length bookkeeping of reachable tables. -/
def Lens (tbl : WeightTable) : Prop :=
  tbl.dests.length = tbl.sources.length ∧
  tbl.weights.length = tbl.sources.length ∧
  tbl.size = tbl.sources.length ∧
  tbl.indices.length = tbl.sizes.length

instance (tbl : WeightTable) : Decidable (Lens tbl) := by
  unfold Lens; infer_instance

/-- Every recorded stencil range lies inside the flat storage. -/
def RangesValid (tbl : WeightTable) : Prop :=
  ∀ d, d < tbl.sizes.length →
    tbl.indices.getD d 0 + tbl.sizes.getD d 0 ≤ tbl.sources.length

instance (tbl : WeightTable) : Decidable (RangesValid tbl) := by
  unfold RangesValid
  exact Nat.decidableBallLT tbl.sizes.length _

/-- The currently open stencil (the destination of the last flat entry) sits
at the end of the flat storage, `_lastOffset` caches its start, and all
entries from there on belong to it. -/
def OpenBack (tbl : WeightTable) : Prop :=
  tbl.dests = [] ∨
    (tbl.lastOffset = (tbl.indices.getD (tbl.dests.getLastD 0) 0 : Int) ∧
     tbl.indices.getD (tbl.dests.getLastD 0) 0 +
       tbl.sizes.getD (tbl.dests.getLastD 0) 0 = tbl.sources.length ∧
     0 < tbl.sizes.getD (tbl.dests.getLastD 0) 0 ∧
     ∀ i, i < tbl.dests.length → tbl.indices.getD (tbl.dests.getLastD 0) 0 ≤ i →
       tbl.dests.getD i 0 = tbl.dests.getLastD 0)

instance (tbl : WeightTable) : Decidable (OpenBack tbl) := by
  unfold OpenBack
  have : Decidable (∀ i, i < tbl.dests.length →
      tbl.indices.getD (tbl.dests.getLastD 0) 0 ≤ i →
      tbl.dests.getD i 0 = tbl.dests.getLastD 0) := Nat.decidableBallLT _ _
  exact instDecidableOr

/-- The state invariant of reachable tables. -/
def TableInv (tbl : WeightTable) : Prop :=
  Lens tbl ∧ RangesValid tbl ∧ OpenBack tbl

instance (tbl : WeightTable) : Decidable (TableInv tbl) := by
  unfold TableInv; infer_instance

/-- The flat index at which a contribution for destination `dst` would be
appended next: the start of `dst`'s open range if `dst` is the currently
open destination, the end of the flat storage otherwise. -/
def openStart (tbl : WeightTable) (dst : Nat) : Nat :=
  if tbl.dests.getLast? = some dst then tbl.indices.getD dst 0 else tbl.sources.length

/-! Basic list lemmas used throughout. -/

theorem getD_set_self {α : Type} (l : List α) (i : Nat) (a d : α) (h : i < l.length) :
    (l.set i a).getD i d = a := by
  rw [List.getD_eq_getD_get?, List.get?_eq_getElem?, List.getElem?_set_self h]
  rfl

theorem getD_set_ne {α : Type} (l : List α) (i j : Nat) (a d : α) (h : i ≠ j) :
    (l.set i a).getD j d = l.getD j d := by
  rw [List.getD_eq_getD_get?, List.getD_eq_getD_get?, List.get?_eq_getElem?,
    List.get?_eq_getElem?, List.getElem?_set_ne h]

theorem getD_concat_self {α : Type} (l : List α) (a d : α) :
    (l ++ [a]).getD l.length d = a := by
  rw [List.getD_append_right _ _ _ _ (Nat.le_refl _)]
  simp

theorem getD_oob {α : Type} (l : List α) (j : Nat) (d : α) (h : l.length ≤ j) :
    l.getD j d = d := List.getD_eq_default _ _ h

theorem mem_of_getD {α : Type} (l : List α) (j : Nat) (d : α) (h : j < l.length) :
    l.getD j d ∈ l := by
  rw [List.getD_eq_getElem _ _ h]
  exact List.getElem_mem h

theorem set_concat_self {α : Type} (l : List α) (a b : α) :
    (l ++ [a]).set l.length b = l ++ [b] := by
  rw [List.set_append_right _ _ (Nat.le_refl _)]
  simp

theorem length_resizeZero (l : List Nat) (n : Nat) : (resizeZero l n).length = n := by
  unfold resizeZero
  split
  · simp; omega
  · simp; omega

theorem getD_resizeZero_lt (l : List Nat) (n j : Nat) (hl : l.length ≤ n)
    (h : j < l.length) : (resizeZero l n).getD j 0 = l.getD j 0 := by
  unfold resizeZero
  rw [if_pos hl]
  exact List.getD_append _ _ _ _ h

theorem getD_resizeZero_pad (l : List Nat) (n j : Nat) (hl : l.length ≤ n)
    (h : l.length ≤ j) : (resizeZero l n).getD j 0 = 0 := by
  unfold resizeZero
  rw [if_pos hl]
  rcases Nat.lt_or_ge j n with hj | hj
  · rw [List.getD_append_right _ _ _ _ h, List.getD_eq_getElem, List.getElem_replicate]
    simp
    omega
  · apply getD_oob
    simp
    omega

theorem getLastD_concat_self (l : List Nat) (a : Nat) : (l ++ [a]).getLastD 0 = a := by
  rw [List.getLastD_eq_getLast?, List.getLast?_concat]
  rfl

/-- `ContractOK` is decidable (by executing the trace). -/
def decContractOK : (tbl : WeightTable) → (ops : List (Nat × Nat × ℚ)) →
    Decidable (ContractOK tbl ops)
  | _, [] => isTrue trivial
  | tbl, (s, d, w) :: ops =>
      haveI : Decidable (ContractOK (tbl.addWithWeightScalar s d w) ops) :=
        decContractOK (tbl.addWithWeightScalar s d w) ops
      inferInstanceAs (Decidable ((s < tbl.coarseVertCount ∨ SrcFinalized tbl s) ∧
        ContractOK (tbl.addWithWeightScalar s d w) ops))

instance (tbl : WeightTable) (ops : List (Nat × Nat × ℚ)) :
    Decidable (ContractOK tbl ops) := decContractOK tbl ops

/-! Structural case lemmas for the `add` and `merge` operations. -/

theorem add_guard_iff (tbl : WeightTable) (dst : Nat) :
    (tbl.dests.isEmpty ∨ tbl.dests.getLast? ≠ some dst) ↔
      tbl.dests.getLast? ≠ some dst := by
  constructor
  · rintro (h | h)
    · rw [List.isEmpty_iff] at h
      rw [h]
      simp
    · exact h
  · exact Or.inr

theorem set_set_getD (l : List Nat) (dst : Nat) :
    (l.set dst 0).set dst ((l.set dst 0).getD dst 0 + 1) = l.set dst 1 := by
  rcases Nat.lt_or_ge dst l.length with h | h
  · rw [getD_set_self _ _ _ _ (by simpa using h), List.set_set]
  · rw [List.set_eq_of_length_le (by simpa using h), List.set_eq_of_length_le h,
      List.set_eq_of_length_le h]

theorem addScalar_fresh (tbl : WeightTable) (src dst : Nat) (w : ℚ)
    (h : tbl.dests.getLast? ≠ some dst) :
    tbl.addScalar src dst w =
      { tbl with
          indices := (if tbl.indices.length < dst + 1 then
              resizeZero tbl.indices (dst + 1) else tbl.indices).set dst
                tbl.sources.length
          sizes := (if tbl.indices.length < dst + 1 then
              resizeZero tbl.sizes (dst + 1) else tbl.sizes).set dst 1
          lastOffset := (tbl.sources.length : Int)
          size := tbl.size + 1
          dests := tbl.dests ++ [dst]
          sources := tbl.sources ++ [src]
          weights := tbl.weights ++ [w] } := by
  unfold WeightTable.addScalar
  rw [if_pos ((add_guard_iff tbl dst).2 h)]
  split
  · simp only []
    rw [set_set_getD]
  · simp only []
    rw [set_set_getD]

theorem addScalar_cont (tbl : WeightTable) (src dst : Nat) (w : ℚ)
    (h : tbl.dests.getLast? = some dst) :
    tbl.addScalar src dst w =
      { tbl with
          size := tbl.size + 1
          sizes := tbl.sizes.set dst (tbl.sizes.getD dst 0 + 1)
          dests := tbl.dests ++ [dst]
          sources := tbl.sources ++ [src]
          weights := tbl.weights ++ [w] } := by
  unfold WeightTable.addScalar
  rw [if_neg]
  intro hc
  rw [add_guard_iff] at hc
  exact hc h

theorem addDeriv_fresh (tbl : WeightTable) (src dst : Nat) (w : PointDerivWeight)
    (h : tbl.dests.getLast? ≠ some dst) :
    tbl.addDeriv src dst w =
      { tbl with
          indices := (if tbl.indices.length < dst + 1 then
              resizeZero tbl.indices (dst + 1) else tbl.indices).set dst
                tbl.sources.length
          sizes := (if tbl.indices.length < dst + 1 then
              resizeZero tbl.sizes (dst + 1) else tbl.sizes).set dst 1
          lastOffset := (tbl.sources.length : Int)
          size := tbl.size + 1
          dests := tbl.dests ++ [dst]
          sources := tbl.sources ++ [src]
          weights := tbl.weights ++ [w.p]
          duWeights := tbl.duWeights ++ [w.du]
          dvWeights := tbl.dvWeights ++ [w.dv] } := by
  unfold WeightTable.addDeriv
  rw [if_pos ((add_guard_iff tbl dst).2 h)]
  split
  · simp only []
    rw [set_set_getD]
  · simp only []
    rw [set_set_getD]

theorem addDeriv_cont (tbl : WeightTable) (src dst : Nat) (w : PointDerivWeight)
    (h : tbl.dests.getLast? = some dst) :
    tbl.addDeriv src dst w =
      { tbl with
          size := tbl.size + 1
          sizes := tbl.sizes.set dst (tbl.sizes.getD dst 0 + 1)
          dests := tbl.dests ++ [dst]
          sources := tbl.sources ++ [src]
          weights := tbl.weights ++ [w.p]
          duWeights := tbl.duWeights ++ [w.du]
          dvWeights := tbl.dvWeights ++ [w.dv] } := by
  unfold WeightTable.addDeriv
  rw [if_neg]
  intro hc
  rw [add_guard_iff] at hc
  exact hc h

theorem addScalar_sources (tbl : WeightTable) (src dst : Nat) (w : ℚ) :
    (tbl.addScalar src dst w).sources = tbl.sources ++ [src] := by
  rcases Classical.em (tbl.dests.getLast? = some dst) with h | h
  · rw [addScalar_cont _ _ _ _ h]
  · rw [addScalar_fresh _ _ _ _ h]

theorem addScalar_weights (tbl : WeightTable) (src dst : Nat) (w : ℚ) :
    (tbl.addScalar src dst w).weights = tbl.weights ++ [w] := by
  rcases Classical.em (tbl.dests.getLast? = some dst) with h | h
  · rw [addScalar_cont _ _ _ _ h]
  · rw [addScalar_fresh _ _ _ _ h]

theorem addScalar_dests (tbl : WeightTable) (src dst : Nat) (w : ℚ) :
    (tbl.addScalar src dst w).dests = tbl.dests ++ [dst] := by
  rcases Classical.em (tbl.dests.getLast? = some dst) with h | h
  · rw [addScalar_cont _ _ _ _ h]
  · rw [addScalar_fresh _ _ _ _ h]

theorem addScalar_size (tbl : WeightTable) (src dst : Nat) (w : ℚ) :
    (tbl.addScalar src dst w).size = tbl.size + 1 := by
  rcases Classical.em (tbl.dests.getLast? = some dst) with h | h
  · rw [addScalar_cont _ _ _ _ h]
  · rw [addScalar_fresh _ _ _ _ h]

theorem addScalar_duWeights (tbl : WeightTable) (src dst : Nat) (w : ℚ) :
    (tbl.addScalar src dst w).duWeights = tbl.duWeights := by
  rcases Classical.em (tbl.dests.getLast? = some dst) with h | h
  · rw [addScalar_cont _ _ _ _ h]
  · rw [addScalar_fresh _ _ _ _ h]

theorem addScalar_dvWeights (tbl : WeightTable) (src dst : Nat) (w : ℚ) :
    (tbl.addScalar src dst w).dvWeights = tbl.dvWeights := by
  rcases Classical.em (tbl.dests.getLast? = some dst) with h | h
  · rw [addScalar_cont _ _ _ _ h]
  · rw [addScalar_fresh _ _ _ _ h]

theorem addScalar_coarseVertCount (tbl : WeightTable) (src dst : Nat) (w : ℚ) :
    (tbl.addScalar src dst w).coarseVertCount = tbl.coarseVertCount := by
  rcases Classical.em (tbl.dests.getLast? = some dst) with h | h
  · rw [addScalar_cont _ _ _ _ h]
  · rw [addScalar_fresh _ _ _ _ h]

theorem addScalar_compactWeights (tbl : WeightTable) (src dst : Nat) (w : ℚ) :
    (tbl.addScalar src dst w).compactWeights = tbl.compactWeights := by
  rcases Classical.em (tbl.dests.getLast? = some dst) with h | h
  · rw [addScalar_cont _ _ _ _ h]
  · rw [addScalar_fresh _ _ _ _ h]

theorem addDeriv_sources (tbl : WeightTable) (src dst : Nat) (w : PointDerivWeight) :
    (tbl.addDeriv src dst w).sources = tbl.sources ++ [src] := by
  rcases Classical.em (tbl.dests.getLast? = some dst) with h | h
  · rw [addDeriv_cont _ _ _ _ h]
  · rw [addDeriv_fresh _ _ _ _ h]

theorem addDeriv_weights (tbl : WeightTable) (src dst : Nat) (w : PointDerivWeight) :
    (tbl.addDeriv src dst w).weights = tbl.weights ++ [w.p] := by
  rcases Classical.em (tbl.dests.getLast? = some dst) with h | h
  · rw [addDeriv_cont _ _ _ _ h]
  · rw [addDeriv_fresh _ _ _ _ h]

theorem addDeriv_duWeights (tbl : WeightTable) (src dst : Nat) (w : PointDerivWeight) :
    (tbl.addDeriv src dst w).duWeights = tbl.duWeights ++ [w.du] := by
  rcases Classical.em (tbl.dests.getLast? = some dst) with h | h
  · rw [addDeriv_cont _ _ _ _ h]
  · rw [addDeriv_fresh _ _ _ _ h]

theorem addDeriv_dvWeights (tbl : WeightTable) (src dst : Nat) (w : PointDerivWeight) :
    (tbl.addDeriv src dst w).dvWeights = tbl.dvWeights ++ [w.dv] := by
  rcases Classical.em (tbl.dests.getLast? = some dst) with h | h
  · rw [addDeriv_cont _ _ _ _ h]
  · rw [addDeriv_fresh _ _ _ _ h]

theorem addDeriv_dests (tbl : WeightTable) (src dst : Nat) (w : PointDerivWeight) :
    (tbl.addDeriv src dst w).dests = tbl.dests ++ [dst] := by
  rcases Classical.em (tbl.dests.getLast? = some dst) with h | h
  · rw [addDeriv_cont _ _ _ _ h]
  · rw [addDeriv_fresh _ _ _ _ h]

theorem addDeriv_size (tbl : WeightTable) (src dst : Nat) (w : PointDerivWeight) :
    (tbl.addDeriv src dst w).size = tbl.size + 1 := by
  rcases Classical.em (tbl.dests.getLast? = some dst) with h | h
  · rw [addDeriv_cont _ _ _ _ h]
  · rw [addDeriv_fresh _ _ _ _ h]

theorem scanFrom_some {sources : List Nat} {src start stop i : Nat}
    (h : scanFrom sources src start stop = some i) :
    start ≤ i ∧ i < stop ∧ sources.getD i 0 = src := by
  unfold scanFrom at h
  have hmem := List.mem_of_find?_eq_some h
  have hp := List.find?_some h
  rw [List.mem_range'_1] at hmem
  have hsrc : sources.getD i 0 = src := by
    simpa using hp
  refine ⟨hmem.1, ?_, hsrc⟩
  omega

/-! The reachable-state invariant: establishment and preservation. -/

theorem pos_getD_lt (l : List Nat) (d : Nat) (h : 0 < l.getD d 0) : d < l.length := by
  by_contra hc
  rw [getD_oob _ _ _ (Nat.le_of_not_lt hc)] at h
  exact Nat.lt_irrefl 0 h

theorem ne_nil_of_getLast? {l : List Nat} {d : Nat} (h : l.getLast? = some d) :
    l ≠ [] := by
  intro hc
  rw [hc] at h
  exact Option.noConfusion h

theorem getLastD_of_getLast? {l : List Nat} {d : Nat} (h : l.getLast? = some d) :
    l.getLastD 0 = d := by
  rw [List.getLastD_eq_getLast?, h]
  rfl

theorem openBack_facts {tbl : WeightTable} {d : Nat} (hO : OpenBack tbl)
    (h : tbl.dests.getLast? = some d) :
    tbl.lastOffset = (tbl.indices.getD d 0 : Int) ∧
    tbl.indices.getD d 0 + tbl.sizes.getD d 0 = tbl.sources.length ∧
    0 < tbl.sizes.getD d 0 ∧
    ∀ i, i < tbl.dests.length → tbl.indices.getD d 0 ≤ i →
      tbl.dests.getD i 0 = d := by
  rcases hO with hO | hO
  · exact absurd hO (ne_nil_of_getLast? h)
  · rw [getLastD_of_getLast? h] at hO
    exact hO

theorem guard_back {tbl : WeightTable} {dst : Nat} (hInv : TableInv tbl)
    (hda : tbl.destAt tbl.lastOffset = some dst) :
    tbl.dests.getLast? = some dst := by
  obtain ⟨hL, _, hO⟩ := hInv
  cases hb : tbl.dests.getLast? with
  | none =>
      rw [List.getLast?_eq_none_iff] at hb
      unfold WeightTable.destAt at hda
      rw [hb] at hda
      split at hda
      · simp at hda
      · exact Option.noConfusion hda
  | some b =>
      obtain ⟨hlo, hsum, hpos, hcont⟩ := openBack_facts hO hb
      unfold WeightTable.destAt at hda
      rw [hlo] at hda
      rw [if_pos (Int.ofNat_nonneg _)] at hda
      have htn : ((tbl.indices.getD b 0 : Int)).toNat = tbl.indices.getD b 0 := rfl
      rw [htn] at hda
      have hlt : tbl.indices.getD b 0 < tbl.dests.length := by
        rw [hL.1]
        omega
      rw [List.getElem?_eq_getElem hlt] at hda
      have : tbl.dests[tbl.indices.getD b 0] = b := by
        have := hcont (tbl.indices.getD b 0) hlt (Nat.le_refl _)
        rw [List.getD_eq_getElem _ _ hlt] at this
        exact this
      rw [this] at hda
      exact hda

theorem tableInv_addScalar (tbl : WeightTable) (src dst : Nat) (w : ℚ)
    (hInv : TableInv tbl) : TableInv (tbl.addScalar src dst w) := by
  obtain ⟨hL, hR, hO⟩ := hInv
  obtain ⟨hLd, hLw, hLs, hLi⟩ := hL
  rcases Classical.em (tbl.dests.getLast? = some dst) with h | h
  · -- continuing the open stencil
    obtain ⟨hlo, hsum, hpos, hcont⟩ := openBack_facts hO h
    have hdlt : dst < tbl.sizes.length := pos_getD_lt _ _ hpos
    rw [addScalar_cont _ _ _ _ h]
    refine ⟨⟨by simp [hLd], by simp [hLw], by simp [hLs], by simp [hLi]⟩, ?_, ?_⟩
    · intro d hd
      simp only [List.length_set] at hd
      simp only [List.length_append, List.length_singleton]
      rcases Classical.em (d = dst) with hdd | hdd
      · subst hdd
        rw [getD_set_self _ _ _ _ hdlt]
        omega
      · rw [getD_set_ne _ _ _ _ _ (fun hc => hdd hc.symm)]
        have := hR d hd
        omega
    · right
      rw [getLastD_concat_self]
      refine ⟨by simp [hlo], ?_, ?_, ?_⟩
      · rw [getD_set_self _ _ _ _ hdlt]
        simp only [List.length_append, List.length_singleton]
        omega
      · rw [getD_set_self _ _ _ _ hdlt]
        omega
      · intro i hi hoff
        simp only [List.length_append, List.length_singleton] at hi
        rcases Nat.lt_or_ge i tbl.dests.length with hil | hil
        · rw [List.getD_append _ _ _ _ hil]
          exact hcont i hil hoff
        · have : i = tbl.dests.length := by omega
          subst this
          exact getD_concat_self _ _ _
  · -- opening a fresh stencil
    rw [addScalar_fresh _ _ _ _ h]
    by_cases hg : tbl.indices.length < dst + 1
    · rw [if_pos hg, if_pos hg]
      have hglen : (resizeZero tbl.indices (dst + 1)).length = dst + 1 :=
        length_resizeZero _ _
      have hslen : (resizeZero tbl.sizes (dst + 1)).length = dst + 1 :=
        length_resizeZero _ _
      have hdlt : dst < (resizeZero tbl.indices (dst + 1)).length := by omega
      have hdlts : dst < (resizeZero tbl.sizes (dst + 1)).length := by omega
      have hszle : tbl.sizes.length ≤ dst + 1 := by omega
      have hidle : tbl.indices.length ≤ dst + 1 := by omega
      refine ⟨⟨by simp [hLd], by simp [hLw], by simp [hLs], by simp [hglen, hslen]⟩,
        ?_, ?_⟩
      · intro d hd
        simp only [List.length_set] at hd
        simp only [List.length_append, List.length_singleton]
        rcases Classical.em (d = dst) with hdd | hdd
        · subst hdd
          rw [getD_set_self _ _ _ _ hdlt, getD_set_self _ _ _ _ hdlts]
        · rw [getD_set_ne _ _ _ _ _ (fun hc => hdd hc.symm),
            getD_set_ne _ _ _ _ _ (fun hc => hdd hc.symm)]
          rcases Nat.lt_or_ge d tbl.sizes.length with hdl | hdl
          · rw [getD_resizeZero_lt _ _ _ hszle hdl,
              getD_resizeZero_lt _ _ _ hidle (by omega)]
            have := hR d hdl
            omega
          · rw [getD_resizeZero_pad _ _ _ hszle hdl,
              getD_resizeZero_pad tbl.indices _ _ hidle (by omega)]
            omega
      · right
        rw [getLastD_concat_self]
        rw [getD_set_self _ _ _ _ hdlt, getD_set_self _ _ _ _ hdlts]
        refine ⟨rfl, by simp, Nat.one_pos, ?_⟩
        intro i hi hoff
        simp only [List.length_append, List.length_singleton] at hi
        have : i = tbl.dests.length := by omega
        subst this
        exact getD_concat_self _ _ _
    · rw [if_neg hg, if_neg hg]
      have hdlt : dst < tbl.indices.length := by omega
      have hdlts : dst < tbl.sizes.length := by omega
      refine ⟨⟨by simp [hLd], by simp [hLw], by simp [hLs], by simp [hLi]⟩, ?_, ?_⟩
      · intro d hd
        simp only [List.length_set] at hd
        simp only [List.length_append, List.length_singleton]
        rcases Classical.em (d = dst) with hdd | hdd
        · subst hdd
          rw [getD_set_self _ _ _ _ hdlt, getD_set_self _ _ _ _ hdlts]
        · rw [getD_set_ne _ _ _ _ _ (fun hc => hdd hc.symm),
            getD_set_ne _ _ _ _ _ (fun hc => hdd hc.symm)]
          have := hR d hd
          omega
      · right
        rw [getLastD_concat_self]
        rw [getD_set_self _ _ _ _ hdlt, getD_set_self _ _ _ _ hdlts]
        refine ⟨rfl, by simp, Nat.one_pos, ?_⟩
        intro i hi hoff
        simp only [List.length_append, List.length_singleton] at hi
        have : i = tbl.dests.length := by omega
        subst this
        exact getD_concat_self _ _ _

theorem tableInv_mergeScalar (tbl : WeightTable) (src dst : Nat) (wv wf : ℚ)
    (lo : Int) (ts : Nat) (hInv : TableInv tbl) :
    TableInv (tbl.mergeScalar src dst wv wf lo ts) := by
  unfold WeightTable.mergeScalar
  split
  · split
    · obtain ⟨⟨hLd, hLw, hLs, hLi⟩, hR, hO⟩ := hInv
      exact ⟨⟨by simpa using hLd, by simpa using hLw, by simpa using hLs,
        by simpa using hLi⟩, hR, hO⟩
    · exact tableInv_addScalar _ _ _ _ hInv
  · exact tableInv_addScalar _ _ _ _ hInv

theorem getD_range {n i : Nat} (h : i < n) : (List.range n).getD i 0 = i := by
  rw [List.getD_eq_getElem _ _ (by simpa using h)]
  simp

theorem getD_replicate {n i : Nat} (a : Nat) (h : i < n) :
    (List.replicate n a).getD i 0 = a := by
  rw [List.getD_eq_getElem _ _ (by simpa using h)]
  simp

theorem init_coarseVertCount (n : Nat) (g c : Bool) :
    (WeightTable.init n g c).coarseVertCount = n := by
  unfold WeightTable.init
  split
  · rfl
  · rfl

theorem init_compactWeights (n : Nat) (g c : Bool) :
    (WeightTable.init n g c).compactWeights = c := by
  unfold WeightTable.init
  split
  · rfl
  · rfl

theorem tableInv_init (n : Nat) (g c : Bool) : TableInv (WeightTable.init n g c) := by
  unfold WeightTable.init
  split
  · refine ⟨⟨by simp, by simp, by simp, by simp⟩, ?_, ?_⟩
    · intro d hd
      simp only [List.length_replicate] at hd
      simp only [List.length_range]
      rw [getD_range hd, getD_replicate _ hd]
      omega
    · cases n with
      | zero => left; rfl
      | succ m =>
          right
          have hlast : (List.range (m + 1)).getLastD 0 = m := by
            rw [List.range_succ, getLastD_concat_self]
          simp only [hlast]
          have hrm : (List.range (m + 1)).getD m 0 = m := getD_range (Nat.lt_succ_self m)
          rw [hrm]
          refine ⟨?_, ?_, ?_, ?_⟩
          · simp
          · rw [getD_replicate _ (Nat.lt_succ_self m)]
            simp
          · rw [getD_replicate _ (Nat.lt_succ_self m)]
            exact Nat.one_pos
          · intro i hi hoff
            simp only [List.length_range] at hi
            have him : i = m := by omega
            rw [him]
            exact getD_range (Nat.lt_succ_self m)
  · refine ⟨⟨rfl, rfl, rfl, rfl⟩, ?_, Or.inl rfl⟩
    intro d hd
    simp at hd

theorem coarseOnly_init (n : Nat) (g c : Bool) : CoarseOnly (WeightTable.init n g c) := by
  unfold CoarseOnly WeightTable.init
  split
  · intro s hs
    simp only [List.mem_range] at hs
    simpa using hs
  · intro s hs
    simp at hs

theorem mergeScalar_sources_cases (tbl : WeightTable) (src dst : Nat) (wv wf : ℚ)
    (lo : Int) (ts : Nat) :
    (tbl.mergeScalar src dst wv wf lo ts).sources = tbl.sources ∨
    (tbl.mergeScalar src dst wv wf lo ts).sources = tbl.sources ++ [src] := by
  unfold WeightTable.mergeScalar
  split
  · split
    · left; rfl
    · right; exact addScalar_sources _ _ _ _
  · right; exact addScalar_sources _ _ _ _

theorem mergeScalar_sources_len (tbl : WeightTable) (src dst : Nat) (wv wf : ℚ)
    (lo : Int) (ts : Nat) :
    tbl.sources.length ≤ (tbl.mergeScalar src dst wv wf lo ts).sources.length := by
  rcases mergeScalar_sources_cases tbl src dst wv wf lo ts with h | h
  · rw [h]
  · rw [h]
    simp

theorem mergeScalar_coarseVertCount (tbl : WeightTable) (src dst : Nat) (wv wf : ℚ)
    (lo : Int) (ts : Nat) :
    (tbl.mergeScalar src dst wv wf lo ts).coarseVertCount = tbl.coarseVertCount := by
  unfold WeightTable.mergeScalar
  split
  · split
    · rfl
    · exact addScalar_coarseVertCount _ _ _ _
  · exact addScalar_coarseVertCount _ _ _ _

theorem mergeScalar_compactWeights (tbl : WeightTable) (src dst : Nat) (wv wf : ℚ)
    (lo : Int) (ts : Nat) :
    (tbl.mergeScalar src dst wv wf lo ts).compactWeights = tbl.compactWeights := by
  unfold WeightTable.mergeScalar
  split
  · split
    · rfl
    · exact addScalar_compactWeights _ _ _ _
  · exact addScalar_compactWeights _ _ _ _

theorem coarseOnly_mergeScalar (tbl : WeightTable) (src dst : Nat) (wv wf : ℚ)
    (lo : Int) (ts : Nat) (h : CoarseOnly tbl) (hs : src < tbl.coarseVertCount) :
    CoarseOnly (tbl.mergeScalar src dst wv wf lo ts) := by
  intro s hsmem
  rw [mergeScalar_coarseVertCount]
  rcases mergeScalar_sources_cases tbl src dst wv wf lo ts with hc | hc
  · rw [hc] at hsmem
    exact h s hsmem
  · rw [hc] at hsmem
    rcases List.mem_append.mp hsmem with hm | hm
    · exact h s hm
    · rw [List.mem_singleton.mp hm]
      exact hs

theorem tableInv_resolveLoopScalar (dst : Nat) (wf : ℚ) :
    ∀ (len start : Nat) (t : WeightTable), TableInv t →
      TableInv (WeightTable.resolveLoopScalar dst wf start len t) := by
  intro len
  induction len with
  | zero =>
      intro start t h
      simpa only [WeightTable.resolveLoopScalar] using h
  | succ len ih =>
      intro start t h
      simp only [WeightTable.resolveLoopScalar]
      exact ih (start + 1) _ (tableInv_mergeScalar _ _ _ _ _ _ _ h)

theorem tableInv_addWithWeightScalar (tbl : WeightTable) (src dst : Nat) (w : ℚ)
    (hInv : TableInv tbl) : TableInv (tbl.addWithWeightScalar src dst w) := by
  unfold WeightTable.addWithWeightScalar
  split
  · exact tableInv_mergeScalar _ _ _ _ _ _ _ hInv
  · exact tableInv_resolveLoopScalar _ _ _ _ _ hInv

theorem resolveLoopScalar_coarseVertCount (dst : Nat) (wf : ℚ) :
    ∀ (len start : Nat) (t : WeightTable),
      (WeightTable.resolveLoopScalar dst wf start len t).coarseVertCount =
        t.coarseVertCount := by
  intro len
  induction len with
  | zero =>
      intro start t
      simp only [WeightTable.resolveLoopScalar]
  | succ len ih =>
      intro start t
      simp only [WeightTable.resolveLoopScalar]
      rw [ih (start + 1)]
      exact mergeScalar_coarseVertCount _ _ _ _ _ _ _

theorem addWithWeightScalar_coarseVertCount (tbl : WeightTable) (src dst : Nat)
    (w : ℚ) :
    (tbl.addWithWeightScalar src dst w).coarseVertCount = tbl.coarseVertCount := by
  unfold WeightTable.addWithWeightScalar
  split
  · exact mergeScalar_coarseVertCount _ _ _ _ _ _ _
  · exact resolveLoopScalar_coarseVertCount _ _ _ _ _

theorem coarseOnly_resolveLoopScalar (dst : Nat) (wf : ℚ) (B : Nat) :
    ∀ (len start : Nat) (t : WeightTable), CoarseOnly t →
      start + len ≤ B → B ≤ t.sources.length →
      CoarseOnly (WeightTable.resolveLoopScalar dst wf start len t) := by
  intro len
  induction len with
  | zero =>
      intro start t h _ _
      simpa only [WeightTable.resolveLoopScalar] using h
  | succ len ih =>
      intro start t h hsl hB
      simp only [WeightTable.resolveLoopScalar]
      have hmem : t.sources.getD start 0 ∈ t.sources :=
        mem_of_getD _ _ _ (by omega)
      have hco : t.sources.getD start 0 < t.coarseVertCount := h _ hmem
      refine ih (start + 1) _ (coarseOnly_mergeScalar _ _ _ _ _ _ _ h hco)
        (by omega) ?_
      calc B ≤ t.sources.length := hB
        _ ≤ _ := mergeScalar_sources_len _ _ _ _ _ _ _

theorem coarseOnly_addWithWeightScalar (tbl : WeightTable) (src dst : Nat) (w : ℚ)
    (h : CoarseOnly tbl)
    (hsrc : src < tbl.coarseVertCount ∨ SrcFinalized tbl src) :
    CoarseOnly (tbl.addWithWeightScalar src dst w) := by
  unfold WeightTable.addWithWeightScalar
  split
  · exact coarseOnly_mergeScalar _ _ _ _ _ _ _ h (by assumption)
  · rcases hsrc with hs | hs
    · exact absurd hs (by assumption)
    · exact coarseOnly_resolveLoopScalar _ _
        (tbl.indices.getD src 0 + tbl.sizes.getD src 0) _ _ _ h (Nat.le_refl _) hs

theorem contract_run (ops : List (Nat × Nat × ℚ)) :
    ∀ (tbl : WeightTable), TableInv tbl → CoarseOnly tbl → ContractOK tbl ops →
      TableInv (runOps tbl ops) ∧ CoarseOnly (runOps tbl ops) ∧
        (runOps tbl ops).coarseVertCount = tbl.coarseVertCount := by
  induction ops with
  | nil =>
      intro tbl h1 h2 _
      exact ⟨h1, h2, rfl⟩
  | cons op ops ih =>
      intro tbl h1 h2 hc
      obtain ⟨s, d, w⟩ := op
      obtain ⟨hok, hrest⟩ := hc
      have h1' := tableInv_addWithWeightScalar tbl s d w h1
      have h2' := coarseOnly_addWithWeightScalar tbl s d w h2 hok
      obtain ⟨r1, r2, r3⟩ := ih _ h1' h2' hrest
      refine ⟨r1, r2, ?_⟩
      simp only [runOps] at r3 ⊢
      rw [r3, addWithWeightScalar_coarseVertCount]

/-! Weight-sum bookkeeping for the conservation argument. -/

theorem weightSumFrom_congr (s1 s2 : List Nat) (w1 w2 : List ℚ) (c : Nat) :
    ∀ (len start : Nat),
      (∀ j, start ≤ j → j < start + len →
        s1.getD j 0 = s2.getD j 0 ∧ w1.getD j 0 = w2.getD j 0) →
      weightSumFrom s1 w1 c start len = weightSumFrom s2 w2 c start len := by
  intro len
  induction len with
  | zero => intro start _; rfl
  | succ len ih =>
      intro start h
      simp only [weightSumFrom]
      have hterm := h (start + len) (by omega) (by omega)
      rw [ih start (fun j hj1 hj2 => h j hj1 (by omega)), hterm.1, hterm.2]

theorem weightSumFrom_append (s s2 : List Nat) (w : List ℚ) (w2 : List ℚ) (c : Nat) :
    ∀ (len start : Nat), start + len ≤ s.length → start + len ≤ w.length →
      weightSumFrom (s ++ s2) (w ++ w2) c start len = weightSumFrom s w c start len := by
  intro len start h1 h2
  apply weightSumFrom_congr
  intro j hj1 hj2
  exact ⟨List.getD_append _ _ _ _ (by omega), List.getD_append _ _ _ _ (by omega)⟩

theorem weightSumFrom_set (s : List Nat) (w : List ℚ) (c : Nat) (i : Nat) (a : ℚ)
    (hw : i < w.length) :
    ∀ (len start : Nat), start ≤ i → i < start + len →
      weightSumFrom s (w.set i (w.getD i 0 + a)) c start len =
        weightSumFrom s w c start len + (if s.getD i 0 = c then a else 0) := by
  intro len
  induction len with
  | zero => intro start h1 h2; omega
  | succ len ih =>
      intro start h1 h2
      simp only [weightSumFrom]
      rcases Classical.em (i = start + len) with hi | hi
      · subst hi
        rw [getD_set_self _ _ _ _ hw]
        rw [weightSumFrom_congr _ s _ w c len start ?_]
        · split
          · ring
          · ring
        · intro j hj1 hj2
          exact ⟨rfl, getD_set_ne _ _ _ _ _ (by omega)⟩
      · rw [ih start h1 (by omega), getD_set_ne _ _ _ _ _ hi]
        ring

theorem weightSumFrom_succ_front (s : List Nat) (w : List ℚ) (c : Nat) :
    ∀ (len start : Nat),
      weightSumFrom s w c start (len + 1) =
        (if s.getD start 0 = c then w.getD start 0 else 0) +
          weightSumFrom s w c (start + 1) len := by
  intro len
  induction len with
  | zero =>
      intro start
      simp only [weightSumFrom, Nat.add_zero]
      ring
  | succ len ih =>
      intro start
      have h1 : weightSumFrom s w c start (len + 1 + 1) =
          weightSumFrom s w c start (len + 1) +
            (if s.getD (start + (len + 1)) 0 = c then w.getD (start + (len + 1)) 0
              else 0) := rfl
      rw [h1, ih start]
      have h2 : weightSumFrom s w c (start + 1) (len + 1) =
          weightSumFrom s w c (start + 1) len +
            (if s.getD (start + 1 + len) 0 = c then w.getD (start + 1 + len) 0
              else 0) := rfl
      rw [h2]
      have h3 : start + 1 + len = start + (len + 1) := by omega
      rw [h3]
      ring

theorem openStart_le (tbl : WeightTable) (dst : Nat) (hInv : TableInv tbl) :
    openStart tbl dst ≤ tbl.sources.length := by
  unfold openStart
  split
  · obtain ⟨_, _, hO⟩ := hInv
    obtain ⟨_, hsum, _, _⟩ := openBack_facts hO (by assumption)
    omega
  · exact Nat.le_refl _

theorem addScalar_fresh_getD (tbl : WeightTable) (src dst : Nat) (w : ℚ)
    (h : tbl.dests.getLast? ≠ some dst)
    (hLi : tbl.indices.length = tbl.sizes.length) :
    (tbl.addScalar src dst w).indices.getD dst 0 = tbl.sources.length ∧
    (tbl.addScalar src dst w).sizes.getD dst 0 = 1 := by
  rw [addScalar_fresh _ _ _ _ h]
  by_cases hg : tbl.indices.length < dst + 1
  · rw [if_pos hg, if_pos hg]
    constructor
    · exact getD_set_self _ _ _ _ (by rw [length_resizeZero]; omega)
    · exact getD_set_self _ _ _ _ (by rw [length_resizeZero]; omega)
  · rw [if_neg hg, if_neg hg]
    constructor
    · exact getD_set_self _ _ _ _ (by omega)
    · exact getD_set_self _ _ _ _ (by omega)

/-! The per-merge weight-accounting step. -/

theorem addScalar_cont_delta (tbl : WeightTable) (s dst c : Nat) (q : ℚ)
    (hInv : TableInv tbl) (hback : tbl.dests.getLast? = some dst) :
    stencilWeight (tbl.addScalar s dst q) dst c =
        stencilWeight tbl dst c + (if s = c then q else 0) ∧
    (tbl.addScalar s dst q).dests.getLast? = some dst ∧
    (∀ j, j < tbl.indices.getD dst 0 →
        (tbl.addScalar s dst q).sources.getD j 0 = tbl.sources.getD j 0 ∧
        (tbl.addScalar s dst q).weights.getD j 0 = tbl.weights.getD j 0) ∧
    (tbl.addScalar s dst q).indices.getD dst 0 = tbl.indices.getD dst 0 ∧
    tbl.sources.length ≤ (tbl.addScalar s dst q).sources.length := by
  obtain ⟨⟨hLd, hLw, hLs, hLi⟩, hR, hO⟩ := hInv
  obtain ⟨hlo, hsum, hpos, hcont⟩ := openBack_facts hO hback
  have hdlt : dst < tbl.sizes.length := pos_getD_lt _ _ hpos
  rw [addScalar_cont _ _ _ _ hback]
  refine ⟨?_, ?_, ?_, ?_, ?_⟩
  · unfold stencilWeight
    dsimp only
    rw [getD_set_self _ _ _ _ hdlt]
    simp only [weightSumFrom]
    rw [weightSumFrom_append _ _ _ _ _ _ _ (by omega) (by omega)]
    have hterm1 : (tbl.sources ++ [s]).getD
        (tbl.indices.getD dst 0 + tbl.sizes.getD dst 0) 0 = s := by
      rw [hsum]
      exact getD_concat_self _ _ _
    have hterm2 : (tbl.weights ++ [q]).getD
        (tbl.indices.getD dst 0 + tbl.sizes.getD dst 0) 0 = q := by
      rw [hsum, ← hLw]
      exact getD_concat_self _ _ _
    rw [hterm1, hterm2]
  · dsimp only
    exact List.getLast?_concat _
  · intro j hj
    dsimp only
    constructor
    · exact List.getD_append _ _ _ _ (by omega)
    · exact List.getD_append _ _ _ _ (by omega)
  · dsimp only
  · dsimp only
    simp

theorem addScalar_fresh_delta (tbl : WeightTable) (s dst c : Nat) (q : ℚ)
    (hInv : TableInv tbl) (hback : tbl.dests.getLast? ≠ some dst)
    (hsz : tbl.sizes.getD dst 0 = 0) :
    stencilWeight (tbl.addScalar s dst q) dst c =
        stencilWeight tbl dst c + (if s = c then q else 0) ∧
    (tbl.addScalar s dst q).dests.getLast? = some dst ∧
    (∀ j, j < tbl.sources.length →
        (tbl.addScalar s dst q).sources.getD j 0 = tbl.sources.getD j 0 ∧
        (tbl.addScalar s dst q).weights.getD j 0 = tbl.weights.getD j 0) ∧
    (tbl.addScalar s dst q).indices.getD dst 0 = tbl.sources.length ∧
    tbl.sources.length ≤ (tbl.addScalar s dst q).sources.length := by
  obtain ⟨⟨hLd, hLw, hLs, hLi⟩, hR, hO⟩ := hInv
  obtain ⟨hidx, hszn⟩ := addScalar_fresh_getD tbl s dst q hback hLi
  have hsrcs := addScalar_sources tbl s dst q
  have hwts := addScalar_weights tbl s dst q
  have hdsts := addScalar_dests tbl s dst q
  refine ⟨?_, ?_, ?_, hidx, ?_⟩
  · unfold stencilWeight
    rw [hidx, hszn, hsrcs, hwts, hsz]
    simp only [weightSumFrom]
    have hterm1 : (tbl.sources ++ [s]).getD (tbl.sources.length + 0) 0 = s := by
      rw [Nat.add_zero]
      exact getD_concat_self _ _ _
    have hterm2 : (tbl.weights ++ [q]).getD (tbl.sources.length + 0) 0 = q := by
      rw [Nat.add_zero, ← hLw]
      exact getD_concat_self _ _ _
    rw [hterm1, hterm2]
  · rw [hdsts]
    exact List.getLast?_concat _
  · intro j hj
    rw [hsrcs, hwts]
    constructor
    · exact List.getD_append _ _ _ _ (by omega)
    · exact List.getD_append _ _ _ _ (by omega)
  · rw [hsrcs]
    simp

theorem mergeScalar_step (tbl : WeightTable) (s dst c : Nat) (wv wf : ℚ)
    (hInv : TableInv tbl)
    (hstate : tbl.dests.getLast? = some dst ∨ tbl.sizes.getD dst 0 = 0) :
    stencilWeight (tbl.mergeScalar s dst wv wf tbl.lastOffset tbl.size) dst c =
        stencilWeight tbl dst c + (if s = c then wv * wf else 0) ∧
    (tbl.mergeScalar s dst wv wf tbl.lastOffset tbl.size).dests.getLast? = some dst ∧
    (∀ j, j < openStart tbl dst →
        (tbl.mergeScalar s dst wv wf tbl.lastOffset tbl.size).sources.getD j 0 =
          tbl.sources.getD j 0 ∧
        (tbl.mergeScalar s dst wv wf tbl.lastOffset tbl.size).weights.getD j 0 =
          tbl.weights.getD j 0) ∧
    openStart tbl dst ≤
      openStart (tbl.mergeScalar s dst wv wf tbl.lastOffset tbl.size) dst ∧
    tbl.sources.length ≤
      (tbl.mergeScalar s dst wv wf tbl.lastOffset tbl.size).sources.length := by
  have hInv2 := hInv
  obtain ⟨⟨hLd, hLw, hLs, hLi⟩, hR, hO⟩ := hInv2
  unfold WeightTable.mergeScalar
  split
  · next hguard =>
      have hback : tbl.dests.getLast? = some dst := guard_back hInv hguard.2.2
      obtain ⟨hlo, hsum, hpos, hcont⟩ := openBack_facts hO hback
      have hops : openStart tbl dst = tbl.indices.getD dst 0 := by
        unfold openStart
        rw [if_pos hback]
      split
      · next i hscan =>
          have hlon : tbl.lastOffset.toNat = tbl.indices.getD dst 0 := by
            rw [hlo]
            rfl
          rw [hlon] at hscan
          obtain ⟨hi1, hi2, hi3⟩ := scanFrom_some hscan
          have hiL : i < tbl.sources.length := by omega
          refine ⟨?_, ?_, ?_, ?_, ?_⟩
          · unfold stencilWeight
            dsimp only
            rw [weightSumFrom_set tbl.sources tbl.weights c i (wv * wf) (by omega)
              (tbl.sizes.getD dst 0) (tbl.indices.getD dst 0) hi1 (by omega), hi3]
          · exact hback
          · intro j hj
            rw [hops] at hj
            refine ⟨rfl, ?_⟩
            dsimp only
            exact getD_set_ne _ _ _ _ _ (by omega)
          · unfold openStart
            dsimp only
            rw [if_pos hback]
          · dsimp only
            exact Nat.le_refl _
      · next hscan =>
          obtain ⟨e1, e2, e3, e4, e5⟩ :=
            addScalar_cont_delta tbl s dst c (wv * wf) hInv hback
          refine ⟨e1, e2, ?_, ?_, e5⟩
          · intro j hj
            rw [hops] at hj
            exact e3 j hj
          · unfold openStart
            rw [if_pos hback, if_pos e2, e4]
  · next hguard =>
      rcases Classical.em (tbl.dests.getLast? = some dst) with hback | hback
      · obtain ⟨hlo, hsum, hpos, hcont⟩ := openBack_facts hO hback
        have hops : openStart tbl dst = tbl.indices.getD dst 0 := by
          unfold openStart
          rw [if_pos hback]
        obtain ⟨e1, e2, e3, e4, e5⟩ :=
          addScalar_cont_delta tbl s dst c (wv * wf) hInv hback
        refine ⟨e1, e2, ?_, ?_, e5⟩
        · intro j hj
          rw [hops] at hj
          exact e3 j hj
        · unfold openStart
          rw [if_pos hback, if_pos e2, e4]
      · have hsz : tbl.sizes.getD dst 0 = 0 := by
          rcases hstate with hst | hst
          · exact absurd hst hback
          · exact hst
        have hops : openStart tbl dst = tbl.sources.length := by
          unfold openStart
          rw [if_neg hback]
        obtain ⟨e1, e2, e3, e4, e5⟩ :=
          addScalar_fresh_delta tbl s dst c (wv * wf) hInv hback hsz
        refine ⟨e1, e2, ?_, ?_, e5⟩
        · intro j hj
          rw [hops] at hj
          exact e3 j hj
        · unfold openStart
          rw [if_pos e2, e4, if_neg hback]

theorem resolveLoop_conservation (dst c : Nat) (wf : ℚ) (S : List Nat) (W : List ℚ)
    (B : Nat) :
    ∀ (len start : Nat) (t : WeightTable),
      TableInv t →
      (t.dests.getLast? = some dst ∨ t.sizes.getD dst 0 = 0) →
      start + len ≤ B →
      B ≤ openStart t dst →
      (∀ j, j < B → t.sources.getD j 0 = S.getD j 0 ∧
        t.weights.getD j 0 = W.getD j 0) →
      stencilWeight (WeightTable.resolveLoopScalar dst wf start len t) dst c =
        stencilWeight t dst c + weightSumFrom S W c start len * wf := by
  intro len
  induction len with
  | zero =>
      intro start t _ _ _ _ _
      simp only [WeightTable.resolveLoopScalar, weightSumFrom]
      ring
  | succ len ih =>
      intro start t h1 h3 hlen hos hreads
      simp only [WeightTable.resolveLoopScalar]
      obtain ⟨e1, e2, e3, e4, e5⟩ := mergeScalar_step t (t.sources.getD start 0) dst c
        (t.weights.getD start 0) wf h1 h3
      have hreads2 : ∀ j, j < B →
          (t.mergeScalar (t.sources.getD start 0) dst (t.weights.getD start 0) wf
            t.lastOffset t.size).sources.getD j 0 = S.getD j 0 ∧
          (t.mergeScalar (t.sources.getD start 0) dst (t.weights.getD start 0) wf
            t.lastOffset t.size).weights.getD j 0 = W.getD j 0 := by
        intro j hj
        have he := e3 j (Nat.lt_of_lt_of_le hj hos)
        have hr := hreads j hj
        exact ⟨he.1.trans hr.1, he.2.trans hr.2⟩
      rw [ih (start + 1) _ (tableInv_mergeScalar _ _ _ _ _ _ _ h1) (Or.inl e2)
        (by omega) (Nat.le_trans hos e4) hreads2, e1]
      rw [weightSumFrom_succ_front S W c len start]
      have hs0 := (hreads start (by omega)).1
      have hw0 := (hreads start (by omega)).2
      rw [hs0, hw0]
      rcases Classical.em (S.getD start 0 = c) with hc | hc
      · simp only [if_pos hc]
        ring
      · simp only [if_neg hc]
        ring

/-! Parallel-length bookkeeping of the flat columns. -/

/-- The scalar flat columns are parallel and their common length is the
total contribution count reported by `GetNumVerticesTotal`. -/
def ParallelScalar (tbl : WeightTable) : Prop :=
  tbl.dests.length = GetNumVerticesTotal tbl ∧
  tbl.sources.length = GetNumVerticesTotal tbl ∧
  tbl.size = GetNumVerticesTotal tbl

/-- In addition, the derivative columns have that same common length. -/
def ParallelDeriv (tbl : WeightTable) : Prop :=
  ParallelScalar tbl ∧
  tbl.duWeights.length = GetNumVerticesTotal tbl ∧
  tbl.dvWeights.length = GetNumVerticesTotal tbl

instance (tbl : WeightTable) : Decidable (ParallelScalar tbl) := by
  unfold ParallelScalar; infer_instance

instance (tbl : WeightTable) : Decidable (ParallelDeriv tbl) := by
  unfold ParallelDeriv; infer_instance

theorem parallelScalar_addScalar (tbl : WeightTable) (src dst : Nat) (w : ℚ)
    (h : ParallelScalar tbl) : ParallelScalar (tbl.addScalar src dst w) := by
  obtain ⟨h1, h2, h3⟩ := h
  unfold ParallelScalar GetNumVerticesTotal
  unfold GetNumVerticesTotal at h1 h2 h3
  rw [addScalar_sources, addScalar_weights, addScalar_dests, addScalar_size]
  simp only [List.length_append, List.length_singleton]
  omega

theorem parallelScalar_mergeScalar (tbl : WeightTable) (src dst : Nat) (wv wf : ℚ)
    (lo : Int) (ts : Nat) (h : ParallelScalar tbl) :
    ParallelScalar (tbl.mergeScalar src dst wv wf lo ts) := by
  unfold WeightTable.mergeScalar
  split
  · split
    · obtain ⟨h1, h2, h3⟩ := h
      unfold ParallelScalar GetNumVerticesTotal
      unfold GetNumVerticesTotal at h1 h2 h3
      dsimp only
      rw [List.length_set]
      exact ⟨h1, h2, h3⟩
    · exact parallelScalar_addScalar _ _ _ _ h
  · exact parallelScalar_addScalar _ _ _ _ h

theorem parallelScalar_resolveLoopScalar (dst : Nat) (wf : ℚ) :
    ∀ (len start : Nat) (t : WeightTable), ParallelScalar t →
      ParallelScalar (WeightTable.resolveLoopScalar dst wf start len t) := by
  intro len
  induction len with
  | zero =>
      intro start t h
      simpa only [WeightTable.resolveLoopScalar] using h
  | succ len ih =>
      intro start t h
      simp only [WeightTable.resolveLoopScalar]
      exact ih (start + 1) _ (parallelScalar_mergeScalar _ _ _ _ _ _ _ h)

theorem parallelScalar_addWithWeightScalar (tbl : WeightTable) (src dst : Nat)
    (w : ℚ) (h : ParallelScalar tbl) :
    ParallelScalar (tbl.addWithWeightScalar src dst w) := by
  unfold WeightTable.addWithWeightScalar
  split
  · exact parallelScalar_mergeScalar _ _ _ _ _ _ _ h
  · exact parallelScalar_resolveLoopScalar _ _ _ _ _ h

theorem parallelScalar_addDeriv (tbl : WeightTable) (src dst : Nat)
    (w : PointDerivWeight) (h : ParallelScalar tbl) :
    ParallelScalar (tbl.addDeriv src dst w) := by
  obtain ⟨h1, h2, h3⟩ := h
  unfold ParallelScalar GetNumVerticesTotal
  unfold GetNumVerticesTotal at h1 h2 h3
  rw [addDeriv_sources, addDeriv_weights, addDeriv_dests, addDeriv_size]
  simp only [List.length_append, List.length_singleton]
  omega

theorem parallelDeriv_addDeriv (tbl : WeightTable) (src dst : Nat)
    (w : PointDerivWeight) (h : ParallelDeriv tbl) :
    ParallelDeriv (tbl.addDeriv src dst w) := by
  obtain ⟨hp, h4, h5⟩ := h
  refine ⟨parallelScalar_addDeriv _ _ _ _ hp, ?_, ?_⟩
  · unfold GetNumVerticesTotal at h4 ⊢
    rw [addDeriv_duWeights, addDeriv_weights]
    simp only [List.length_append, List.length_singleton]
    omega
  · unfold GetNumVerticesTotal at h5 ⊢
    rw [addDeriv_dvWeights, addDeriv_weights]
    simp only [List.length_append, List.length_singleton]
    omega

theorem parallelScalar_mergeDeriv (tbl : WeightTable) (src dst : Nat)
    (wv wf : PointDerivWeight) (lo : Int) (ts : Nat) (h : ParallelScalar tbl) :
    ParallelScalar (tbl.mergeDeriv src dst wv wf lo ts) := by
  unfold WeightTable.mergeDeriv
  split
  · split
    · obtain ⟨h1, h2, h3⟩ := h
      unfold ParallelScalar GetNumVerticesTotal
      unfold GetNumVerticesTotal at h1 h2 h3
      dsimp only
      rw [List.length_set]
      exact ⟨h1, h2, h3⟩
    · exact parallelScalar_addDeriv _ _ _ _ h
  · exact parallelScalar_addDeriv _ _ _ _ h

theorem parallelDeriv_mergeDeriv (tbl : WeightTable) (src dst : Nat)
    (wv wf : PointDerivWeight) (lo : Int) (ts : Nat) (h : ParallelDeriv tbl) :
    ParallelDeriv (tbl.mergeDeriv src dst wv wf lo ts) := by
  unfold WeightTable.mergeDeriv
  split
  · split
    · obtain ⟨⟨h1, h2, h3⟩, h4, h5⟩ := h
      unfold ParallelDeriv ParallelScalar GetNumVerticesTotal
      unfold GetNumVerticesTotal at h1 h2 h3 h4 h5
      dsimp only
      simp only [List.length_set]
      exact ⟨⟨h1, h2, h3⟩, h4, h5⟩
    · exact parallelDeriv_addDeriv _ _ _ _ h
  · exact parallelDeriv_addDeriv _ _ _ _ h

theorem parallelScalar_resolveLoopDeriv (dst : Nat) (wf : PointDerivWeight) :
    ∀ (len start : Nat) (t : WeightTable), ParallelScalar t →
      ParallelScalar (WeightTable.resolveLoopDeriv dst wf start len t) := by
  intro len
  induction len with
  | zero =>
      intro start t h
      simpa only [WeightTable.resolveLoopDeriv] using h
  | succ len ih =>
      intro start t h
      simp only [WeightTable.resolveLoopDeriv]
      exact ih (start + 1) _ (parallelScalar_mergeDeriv _ _ _ _ _ _ _ h)

theorem parallelDeriv_resolveLoopDeriv (dst : Nat) (wf : PointDerivWeight) :
    ∀ (len start : Nat) (t : WeightTable), ParallelDeriv t →
      ParallelDeriv (WeightTable.resolveLoopDeriv dst wf start len t) := by
  intro len
  induction len with
  | zero =>
      intro start t h
      simpa only [WeightTable.resolveLoopDeriv] using h
  | succ len ih =>
      intro start t h
      simp only [WeightTable.resolveLoopDeriv]
      exact ih (start + 1) _ (parallelDeriv_mergeDeriv _ _ _ _ _ _ _ h)

theorem parallelScalar_addWithWeightDeriv (tbl : WeightTable) (src dst : Nat)
    (w : PointDerivWeight) (h : ParallelScalar tbl) :
    ParallelScalar (tbl.addWithWeightDeriv src dst w) := by
  unfold WeightTable.addWithWeightDeriv
  split
  · exact parallelScalar_mergeDeriv _ _ _ _ _ _ _ h
  · exact parallelScalar_resolveLoopDeriv _ _ _ _ _ h

theorem parallelDeriv_addWithWeightDeriv (tbl : WeightTable) (src dst : Nat)
    (w : PointDerivWeight) (h : ParallelDeriv tbl) :
    ParallelDeriv (tbl.addWithWeightDeriv src dst w) := by
  unfold WeightTable.addWithWeightDeriv
  split
  · exact parallelDeriv_mergeDeriv _ _ _ _ _ _ _ h
  · exact parallelDeriv_resolveLoopDeriv _ _ _ _ _ h

theorem parallelScalar_indexAddWithWeight (tbl : WeightTable) (s d : Nat) (w : ℚ)
    (h : ParallelScalar tbl) : ParallelScalar (indexAddWithWeight tbl s d w) := by
  unfold indexAddWithWeight
  split
  · exact h
  · exact parallelScalar_addWithWeightScalar _ _ _ _ h

theorem parallelScalar_stencilAddLoop (st : Stencil) (d : Nat) (w : ℚ) :
    ∀ (len start : Nat) (t : WeightTable), ParallelScalar t →
      ParallelScalar (stencilAddLoop st d w start len t) := by
  intro len
  induction len with
  | zero =>
      intro start t h
      simpa only [stencilAddLoop] using h
  | succ len ih =>
      intro start t h
      simp only [stencilAddLoop]
      split
      · exact ih (start + 1) _ h
      · exact ih (start + 1) _ (parallelScalar_addWithWeightScalar _ _ _ _ h)

theorem parallelScalar_stencilAddWithWeight (tbl : WeightTable) (st : Stencil)
    (d : Nat) (w : ℚ) (h : ParallelScalar tbl) :
    ParallelScalar (stencilAddWithWeight tbl st d w) := by
  unfold stencilAddWithWeight
  split
  · exact h
  · exact parallelScalar_stencilAddLoop _ _ _ _ _ _ h

theorem parallelScalar_stencilAddLoopDeriv (st : Stencil) (d : Nat) (w du dv : ℚ) :
    ∀ (len start : Nat) (t : WeightTable), ParallelScalar t →
      ParallelScalar (stencilAddLoopDeriv st d w du dv start len t) := by
  intro len
  induction len with
  | zero =>
      intro start t h
      simpa only [stencilAddLoopDeriv] using h
  | succ len ih =>
      intro start t h
      simp only [stencilAddLoopDeriv]
      split
      · exact ih (start + 1) _ h
      · exact ih (start + 1) _ (parallelScalar_addWithWeightDeriv _ _ _ _ h)

theorem parallelDeriv_stencilAddLoopDeriv (st : Stencil) (d : Nat) (w du dv : ℚ) :
    ∀ (len start : Nat) (t : WeightTable), ParallelDeriv t →
      ParallelDeriv (stencilAddLoopDeriv st d w du dv start len t) := by
  intro len
  induction len with
  | zero =>
      intro start t h
      simpa only [stencilAddLoopDeriv] using h
  | succ len ih =>
      intro start t h
      simp only [stencilAddLoopDeriv]
      split
      · exact ih (start + 1) _ h
      · exact ih (start + 1) _ (parallelDeriv_addWithWeightDeriv _ _ _ _ h)

theorem parallelScalar_stencilAddWithWeightDeriv (tbl : WeightTable) (st : Stencil)
    (d : Nat) (w du dv : ℚ) (h : ParallelScalar tbl) :
    ParallelScalar (stencilAddWithWeightDeriv tbl st d w du dv) := by
  unfold stencilAddWithWeightDeriv
  split
  · exact h
  · exact parallelScalar_stencilAddLoopDeriv _ _ _ _ _ _ _ _ h

theorem parallelDeriv_stencilAddWithWeightDeriv (tbl : WeightTable) (st : Stencil)
    (d : Nat) (w du dv : ℚ) (h : ParallelDeriv tbl) :
    ParallelDeriv (stencilAddWithWeightDeriv tbl st d w du dv) := by
  unfold stencilAddWithWeightDeriv
  split
  · exact h
  · exact parallelDeriv_stencilAddLoopDeriv _ _ _ _ _ _ _ _ h

theorem parallelScalar_init (n : Nat) (g c : Bool) :
    ParallelScalar (WeightTable.init n g c) := by
  unfold ParallelScalar GetNumVerticesTotal WeightTable.init
  split
  · simp
  · simp

theorem parallelDeriv_init (n : Nat) (c : Bool) :
    ParallelDeriv (WeightTable.init n false c) := by
  refine ⟨parallelScalar_init n false c, ?_, ?_⟩
  · rfl
  · rfl

/-! Destinations that are never contribution targets keep zero metadata. -/

theorem addScalar_lens_idx (tbl : WeightTable) (src dst : Nat) (w : ℚ)
    (hLi : tbl.indices.length = tbl.sizes.length) :
    (tbl.addScalar src dst w).indices.length = (tbl.addScalar src dst w).sizes.length := by
  rcases Classical.em (tbl.dests.getLast? = some dst) with h | h
  · rw [addScalar_cont _ _ _ _ h]
    simp [hLi]
  · rw [addScalar_fresh _ _ _ _ h]
    by_cases hg : tbl.indices.length < dst + 1
    · rw [if_pos hg, if_pos hg]
      simp [length_resizeZero]
    · rw [if_neg hg, if_neg hg]
      simp [hLi]

theorem addScalar_getD_other (tbl : WeightTable) (src dst : Nat) (w : ℚ) (j : Nat)
    (hLi : tbl.indices.length = tbl.sizes.length) (hj : j ≠ dst) :
    (tbl.addScalar src dst w).sizes.getD j 0 = tbl.sizes.getD j 0 ∧
    (tbl.addScalar src dst w).indices.getD j 0 = tbl.indices.getD j 0 := by
  rcases Classical.em (tbl.dests.getLast? = some dst) with h | h
  · rw [addScalar_cont _ _ _ _ h]
    exact ⟨getD_set_ne _ _ _ _ _ (fun hc => hj hc.symm), rfl⟩
  · rw [addScalar_fresh _ _ _ _ h]
    by_cases hg : tbl.indices.length < dst + 1
    · rw [if_pos hg, if_pos hg]
      have hidle : tbl.indices.length ≤ dst + 1 := by omega
      have hszle : tbl.sizes.length ≤ dst + 1 := by omega
      constructor
      · rw [getD_set_ne _ _ _ _ _ (fun hc => hj hc.symm)]
        rcases Nat.lt_or_ge j tbl.sizes.length with hjl | hjl
        · exact getD_resizeZero_lt _ _ _ hszle hjl
        · rw [getD_resizeZero_pad _ _ _ hszle hjl, getD_oob _ _ _ hjl]
      · rw [getD_set_ne _ _ _ _ _ (fun hc => hj hc.symm)]
        rcases Nat.lt_or_ge j tbl.indices.length with hjl | hjl
        · exact getD_resizeZero_lt _ _ _ hidle hjl
        · rw [getD_resizeZero_pad _ _ _ hidle hjl, getD_oob _ _ _ hjl]
    · rw [if_neg hg, if_neg hg]
      exact ⟨getD_set_ne _ _ _ _ _ (fun hc => hj hc.symm),
        getD_set_ne _ _ _ _ _ (fun hc => hj hc.symm)⟩

theorem mergeScalar_lens_idx (tbl : WeightTable) (src dst : Nat) (wv wf : ℚ)
    (lo : Int) (ts : Nat) (hLi : tbl.indices.length = tbl.sizes.length) :
    (tbl.mergeScalar src dst wv wf lo ts).indices.length =
      (tbl.mergeScalar src dst wv wf lo ts).sizes.length := by
  unfold WeightTable.mergeScalar
  split
  · split
    · exact hLi
    · exact addScalar_lens_idx _ _ _ _ hLi
  · exact addScalar_lens_idx _ _ _ _ hLi

theorem mergeScalar_getD_other (tbl : WeightTable) (src dst : Nat) (wv wf : ℚ)
    (lo : Int) (ts : Nat) (j : Nat)
    (hLi : tbl.indices.length = tbl.sizes.length) (hj : j ≠ dst) :
    (tbl.mergeScalar src dst wv wf lo ts).sizes.getD j 0 = tbl.sizes.getD j 0 ∧
    (tbl.mergeScalar src dst wv wf lo ts).indices.getD j 0 =
      tbl.indices.getD j 0 := by
  unfold WeightTable.mergeScalar
  split
  · split
    · exact ⟨rfl, rfl⟩
    · exact addScalar_getD_other _ _ _ _ _ hLi hj
  · exact addScalar_getD_other _ _ _ _ _ hLi hj

theorem resolveLoopScalar_getD_other (dst : Nat) (wf : ℚ) (j : Nat) (hj : j ≠ dst) :
    ∀ (len start : Nat) (t : WeightTable), t.indices.length = t.sizes.length →
      ((WeightTable.resolveLoopScalar dst wf start len t).sizes.getD j 0 =
          t.sizes.getD j 0 ∧
        (WeightTable.resolveLoopScalar dst wf start len t).indices.getD j 0 =
          t.indices.getD j 0) ∧
      (WeightTable.resolveLoopScalar dst wf start len t).indices.length =
        (WeightTable.resolveLoopScalar dst wf start len t).sizes.length := by
  intro len
  induction len with
  | zero =>
      intro start t hLi
      exact ⟨⟨rfl, rfl⟩, hLi⟩
  | succ len ih =>
      intro start t hLi
      simp only [WeightTable.resolveLoopScalar]
      obtain ⟨h1, h2⟩ := mergeScalar_getD_other t (t.sources.getD start 0) dst
        (t.weights.getD start 0) wf t.lastOffset t.size j hLi hj
      have hLi2 := mergeScalar_lens_idx t (t.sources.getD start 0) dst
        (t.weights.getD start 0) wf t.lastOffset t.size hLi
      obtain ⟨⟨r1, r2⟩, r3⟩ := ih (start + 1) _ hLi2
      exact ⟨⟨r1.trans h1, r2.trans h2⟩, r3⟩

theorem addWithWeightScalar_getD_other (tbl : WeightTable) (src dst : Nat) (w : ℚ)
    (j : Nat) (hLi : tbl.indices.length = tbl.sizes.length) (hj : j ≠ dst) :
    ((tbl.addWithWeightScalar src dst w).sizes.getD j 0 = tbl.sizes.getD j 0 ∧
      (tbl.addWithWeightScalar src dst w).indices.getD j 0 =
        tbl.indices.getD j 0) ∧
    (tbl.addWithWeightScalar src dst w).indices.length =
      (tbl.addWithWeightScalar src dst w).sizes.length := by
  unfold WeightTable.addWithWeightScalar
  split
  · exact ⟨mergeScalar_getD_other _ _ _ _ _ _ _ _ hLi hj,
      mergeScalar_lens_idx _ _ _ _ _ _ _ hLi⟩
  · exact resolveLoopScalar_getD_other _ _ _ hj _ _ _ hLi

theorem runOps_untargeted (ops : List (Nat × Nat × ℚ)) :
    ∀ (tbl : WeightTable) (j : Nat), tbl.indices.length = tbl.sizes.length →
      (∀ op ∈ ops, op.2.1 ≠ j) →
      (runOps tbl ops).sizes.getD j 0 = tbl.sizes.getD j 0 ∧
      (runOps tbl ops).indices.getD j 0 = tbl.indices.getD j 0 := by
  induction ops with
  | nil =>
      intro tbl j _ _
      exact ⟨rfl, rfl⟩
  | cons op ops ih =>
      intro tbl j hLi hops
      obtain ⟨s, d, w⟩ := op
      have hd : d ≠ j := hops (s, d, w) (List.mem_cons_self _ _)
      obtain ⟨⟨h1, h2⟩, h3⟩ :=
        addWithWeightScalar_getD_other tbl s d w j hLi (fun hc => hd hc.symm)
      obtain ⟨r1, r2⟩ := ih (tbl.addWithWeightScalar s d w) j h3
        (fun o ho => hops o (List.mem_cons_of_mem _ ho))
      exact ⟨r1.trans h1, r2.trans h2⟩

/-! Derivative-side structural helpers. -/

theorem addDeriv_fresh_getD (tbl : WeightTable) (src dst : Nat) (w : PointDerivWeight)
    (h : tbl.dests.getLast? ≠ some dst)
    (hLi : tbl.indices.length = tbl.sizes.length) :
    (tbl.addDeriv src dst w).indices.getD dst 0 = tbl.sources.length ∧
    (tbl.addDeriv src dst w).sizes.getD dst 0 = 1 := by
  rw [addDeriv_fresh _ _ _ _ h]
  by_cases hg : tbl.indices.length < dst + 1
  · rw [if_pos hg, if_pos hg]
    constructor
    · exact getD_set_self _ _ _ _ (by rw [length_resizeZero]; omega)
    · exact getD_set_self _ _ _ _ (by rw [length_resizeZero]; omega)
  · rw [if_neg hg, if_neg hg]
    constructor
    · exact getD_set_self _ _ _ _ (by omega)
    · exact getD_set_self _ _ _ _ (by omega)

theorem getD_replicate_gen {α : Type} (a d : α) {n i : Nat} (h : i < n) :
    (List.replicate n a).getD i d = a := by
  rw [List.getD_eq_getElem _ _ (by simpa using h)]
  simp

/-! Claim theorems. -/

/-- Claim C4 (code bug): on a table whose `sizes` vector is empty — e.g. a
table constructed with `genCtrlVertStencils = false` before any write — the
`size_t` expression `GetSizes().size() - 1` in `GetNumVertsInStencil` wraps
around to `2^64 - 1`, the out-of-range guard therefore fails, and the code
reads `GetSizes()[stencilIndex]` out of bounds (modelled as `none`) instead
of returning the sentinel `0` that the spec describes. -/
theorem getNumVertsInStencil_empty_oob :
    GetNumVertsInStencil (WeightTable.init 3 false false) 0 = none ∧
    GetNumVertsInStencil (WeightTable.init 3 false false) 0 ≠ some 0 := by
  constructor
  · decide
  · decide

/-- Claim C5: constructing with `genCtrlVertStencils = true` and
`coarseVertCount = n > 0` pre-populates, for every `i < n`, the identity
stencil: `offsets[i] = i`, `sizes[i] = 1`, `sources[i] = i`,
`weights[i] = 1`, and the total contribution count is `n`. -/
theorem trivial_control_stencils (n : Nat) (compact : Bool) (hn : 0 < n)
    (i : Nat) (hi : i < n) :
    (WeightTable.init n true compact).indices.getD i 0 = i ∧
    (WeightTable.init n true compact).sizes.getD i 0 = 1 ∧
    (WeightTable.init n true compact).sources.getD i 0 = i ∧
    (WeightTable.init n true compact).weights.getD i 0 = 1 ∧
    GetNumVerticesTotal (WeightTable.init n true compact) = n := by
  unfold WeightTable.init GetNumVerticesTotal
  simp only [if_true]
  refine ⟨getD_range hi, getD_replicate _ hi, getD_range hi,
    getD_replicate_gen _ _ hi, by simp⟩

/-- Witness for C5 at `n = 3`, `i = 1`. -/
theorem trivial_control_stencils_witness :
    (WeightTable.init 3 true true).indices.getD 1 0 = 1 ∧
    (WeightTable.init 3 true true).sizes.getD 1 0 = 1 ∧
    (WeightTable.init 3 true true).sources.getD 1 0 = 1 ∧
    (WeightTable.init 3 true true).weights.getD 1 0 = 1 ∧
    GetNumVerticesTotal (WeightTable.init 3 true true) = 3 :=
  trivial_control_stencils 3 true (by decide) 1 (by decide)

/-- Claim C6: the facade's `AddWithWeight` entry points drop zero-weight
contributions as exact no-ops — with weight `0` (scalar variants), or with
`weight = du = dv = 0` (derivative variant), the table is left completely
unchanged: no stencil size, no total count, no flat array changes. -/
theorem zero_weight_noop (tbl : WeightTable) (srcIndex dstIndex : Nat)
    (st : Stencil) :
    indexAddWithWeight tbl srcIndex dstIndex 0 = tbl ∧
    stencilAddWithWeight tbl st dstIndex 0 = tbl ∧
    stencilAddWithWeightDeriv tbl st dstIndex 0 0 0 = tbl := by
  refine ⟨?_, ?_, ?_⟩
  · unfold indexAddWithWeight
    rw [if_pos rfl]
  · unfold stencilAddWithWeight
    rw [if_pos rfl]
  · unfold stencilAddWithWeightDeriv
    rw [if_pos ⟨rfl, rfl, rfl⟩]

/-- Claim C8: appending a contribution for a destination `dst` that differs
from the destination of the most recent entry (or into an empty table)
unconditionally points `offsets[dst]` at the current end of the flat storage
and restarts `sizes[dst]` (at 1 after the append), even if `dst` already had
a fully built stencil; the earlier flat entries survive and the total count
still grows, but they are no longer reachable through
`offsets[dst]/sizes[dst]`. -/
theorem add_reopens_destination (tbl : WeightTable) (src dst : Nat) (w : ℚ)
    (hback : tbl.dests.getLast? ≠ some dst)
    (hLi : tbl.indices.length = tbl.sizes.length) :
    (tbl.addScalar src dst w).indices.getD dst 0 = tbl.sources.length ∧
    (tbl.addScalar src dst w).sizes.getD dst 0 = 1 ∧
    (tbl.addScalar src dst w).sources = tbl.sources ++ [src] ∧
    (tbl.addScalar src dst w).weights = tbl.weights ++ [w] ∧
    (tbl.addScalar src dst w).size = tbl.size + 1 := by
  obtain ⟨h1, h2⟩ := addScalar_fresh_getD tbl src dst w hback hLi
  exact ⟨h1, h2, addScalar_sources _ _ _ _, addScalar_weights _ _ _ _,
    addScalar_size _ _ _ _⟩

/-- Witness for C8: reopening control vertex 0 (which already has its
identity stencil) in a `init 2 true true` table. -/
theorem add_reopens_destination_witness :
    ((WeightTable.init 2 true true).addScalar 1 0 (1/2)).indices.getD 0 0 =
      (WeightTable.init 2 true true).sources.length ∧
    ((WeightTable.init 2 true true).addScalar 1 0 (1/2)).sizes.getD 0 0 = 1 ∧
    ((WeightTable.init 2 true true).addScalar 1 0 (1/2)).sources =
      (WeightTable.init 2 true true).sources ++ [1] ∧
    ((WeightTable.init 2 true true).addScalar 1 0 (1/2)).weights =
      (WeightTable.init 2 true true).weights ++ [1/2] ∧
    ((WeightTable.init 2 true true).addScalar 1 0 (1/2)).size =
      (WeightTable.init 2 true true).size + 1 :=
  add_reopens_destination (WeightTable.init 2 true true) 1 0 (1/2) (by decide) rfl

/-- Claim C9: when the first contribution for a destination `d` arrives with
`d` at or beyond the populated range of `offsets`/`sizes`, both arrays grow
to length `d + 1` with zero padding (so the newly created slots below `d`
report offset 0 and size 0); and along any engine trace from a table without
control stencils, a destination that is never a contribution target reports
size 0 and offset 0. -/
theorem sparse_growth_zero_metadata :
    (∀ (tbl : WeightTable) (src d : Nat) (w : ℚ),
      tbl.indices.length = tbl.sizes.length →
      tbl.sizes.length ≤ d →
      tbl.dests.getLast? ≠ some d →
      (tbl.addScalar src d w).indices.length = d + 1 ∧
      (tbl.addScalar src d w).sizes.length = d + 1 ∧
      (∀ j, tbl.sizes.length ≤ j → j < d →
        (tbl.addScalar src d w).sizes.getD j 0 = 0 ∧
        (tbl.addScalar src d w).indices.getD j 0 = 0)) ∧
    (∀ (n : Nat) (c : Bool) (ops : List (Nat × Nat × ℚ)) (j : Nat),
      (∀ op ∈ ops, op.2.1 ≠ j) →
      (runOps (WeightTable.init n false c) ops).sizes.getD j 0 = 0 ∧
      (runOps (WeightTable.init n false c) ops).indices.getD j 0 = 0) := by
  constructor
  · intro tbl src d w hLi hgrow hback
    rw [addScalar_fresh _ _ _ _ hback]
    have hg : tbl.indices.length < d + 1 := by omega
    rw [if_pos hg, if_pos hg]
    have hidle : tbl.indices.length ≤ d + 1 := by omega
    have hszle : tbl.sizes.length ≤ d + 1 := by omega
    refine ⟨?_, ?_, ?_⟩
    · simp [length_resizeZero]
    · simp [length_resizeZero]
    · intro j hj1 hj2
      constructor
      · rw [getD_set_ne _ _ _ _ _ (by omega)]
        exact getD_resizeZero_pad _ _ _ hszle hj1
      · rw [getD_set_ne _ _ _ _ _ (by omega)]
        exact getD_resizeZero_pad _ _ _ hidle (by omega)
  · intro n c ops j hops
    obtain ⟨h1, h2⟩ := runOps_untargeted ops (WeightTable.init n false c) j rfl hops
    constructor
    · rw [h1]
      rfl
    · rw [h2]
      rfl

/-- Witness for C9: growing to destination 3 in an empty table pads
destination 1 with zeros, and destination 2 stays empty along a trace
targeting only destination 3. -/
theorem sparse_growth_zero_metadata_witness :
    ((WeightTable.init 2 false true).addScalar 0 3 1).indices.length = 4 ∧
    ((WeightTable.init 2 false true).addScalar 0 3 1).sizes.length = 4 ∧
    ((WeightTable.init 2 false true).addScalar 0 3 1).sizes.getD 1 0 = 0 ∧
    ((WeightTable.init 2 false true).addScalar 0 3 1).indices.getD 1 0 = 0 ∧
    (runOps (WeightTable.init 2 false true) [(0, 3, 1)]).sizes.getD 2 0 = 0 ∧
    (runOps (WeightTable.init 2 false true) [(0, 3, 1)]).indices.getD 2 0 = 0 := by
  have h1 := sparse_growth_zero_metadata.1 (WeightTable.init 2 false true) 0 3 1
    rfl (by decide) (by decide)
  have h2 := sparse_growth_zero_metadata.2 2 true [(0, 3, 1)] 2 (by decide)
  exact ⟨h1.1, h1.2.1, (h1.2.2 1 (by decide) (by decide)).1,
    (h1.2.2 1 (by decide) (by decide)).2, h2.1, h2.2⟩

/-- Claim C10: construction and every facade write keep the per-entry flat
columns parallel — `dests`, `sources` and `weights` share one length, that
length is the count `GetNumVerticesTotal` reports and equals the cached
`_size`; under derivative-only usage the `duWeights`/`dvWeights` columns
keep that same length as well. -/
theorem arrays_parallel :
    (∀ (n : Nat) (g c : Bool), ParallelScalar (WeightTable.init n g c)) ∧
    (∀ (n : Nat) (c : Bool), ParallelDeriv (WeightTable.init n false c)) ∧
    (∀ (tbl : WeightTable) (s d : Nat) (w : ℚ), ParallelScalar tbl →
      ParallelScalar (indexAddWithWeight tbl s d w)) ∧
    (∀ (tbl : WeightTable) (st : Stencil) (d : Nat) (w : ℚ), ParallelScalar tbl →
      ParallelScalar (stencilAddWithWeight tbl st d w)) ∧
    (∀ (tbl : WeightTable) (st : Stencil) (d : Nat) (w du dv : ℚ),
      ParallelScalar tbl →
      ParallelScalar (stencilAddWithWeightDeriv tbl st d w du dv)) ∧
    (∀ (tbl : WeightTable) (st : Stencil) (d : Nat) (w du dv : ℚ),
      ParallelDeriv tbl →
      ParallelDeriv (stencilAddWithWeightDeriv tbl st d w du dv)) :=
  ⟨parallelScalar_init, parallelDeriv_init,
    parallelScalar_indexAddWithWeight, parallelScalar_stencilAddWithWeight,
    parallelScalar_stencilAddWithWeightDeriv,
    parallelDeriv_stencilAddWithWeightDeriv⟩

/-- Witness for C10 on concrete tables and writes. -/
theorem arrays_parallel_witness :
    ParallelScalar (indexAddWithWeight (WeightTable.init 2 true true) 0 2 (1/2)) ∧
    ParallelDeriv (stencilAddWithWeightDeriv (WeightTable.init 2 false true)
      ⟨1, [0], [1]⟩ 0 1 (1/2) (1/3)) :=
  ⟨arrays_parallel.2.2.1 (WeightTable.init 2 true true) 0 2 (1/2) (by decide),
    arrays_parallel.2.2.2.2.2 (WeightTable.init 2 false true)
      ⟨1, [0], [1]⟩ 0 1 (1/2) (1/3) (by decide)⟩

/-- Claim C1: under the dependency-order contract (each contribution's
source is a coarse vertex or already finalized when used), every finalized
stencil of a table built by a trace of engine contributions contains only
coarse sources: for every destination `d` with `sizes[d] > 0`, every entry
of `sources[offsets[d] .. offsets[d] + sizes[d])` is `< coarseVertCount`,
regardless of how many indirection levels `AddWithWeight` resolved
through. -/
theorem coarse_only_closure (n : Nat) (g c : Bool) (ops : List (Nat × Nat × ℚ))
    (hops : ContractOK (WeightTable.init n g c) ops) :
    ∀ d i, 0 < (runOps (WeightTable.init n g c) ops).sizes.getD d 0 →
      (runOps (WeightTable.init n g c) ops).indices.getD d 0 ≤ i →
      i < (runOps (WeightTable.init n g c) ops).indices.getD d 0 +
        (runOps (WeightTable.init n g c) ops).sizes.getD d 0 →
      (runOps (WeightTable.init n g c) ops).sources.getD i 0 < n := by
  obtain ⟨hInv, hCoarse, hCvc⟩ := contract_run ops (WeightTable.init n g c)
    (tableInv_init n g c) (coarseOnly_init n g c) hops
  intro d i hpos hle hlt
  have hd : d < (runOps (WeightTable.init n g c) ops).sizes.length :=
    pos_getD_lt _ _ hpos
  have hrange := hInv.2.1 d hd
  have hiL : i < (runOps (WeightTable.init n g c) ops).sources.length := by omega
  have hmem := hCoarse _ (mem_of_getD (runOps (WeightTable.init n g c) ops).sources
    i 0 hiL)
  rw [hCvc, init_coarseVertCount] at hmem
  exact hmem

/-- Witness for C1: a two-level trace — destination 2 is built from coarse
vertex 0, then destination 3 is built through the non-coarse source 2 — and
the entry of destination 3's finalized stencil is a coarse vertex. -/
theorem coarse_only_closure_witness :
    (runOps (WeightTable.init 2 true true) [(0, 2, 1/2), (2, 3, 1)]).sources.getD
      3 0 < 2 :=
  coarse_only_closure 2 true true [(0, 2, 1/2), (2, 3, 1)] (by decide) 3 3
    (by decide) (by decide) (by decide)

/-- Claim C2: one engine contribution of source `src` with weight `w` into
the stencil open (or fresh) for `dst` changes the stored coarse weight of
every coarse vertex `c` in `dst`'s range by exactly `w` times the algebraic
weight `src` stands for — the indicator of `src` when `src` is coarse, and
`src`'s stored (already resolved) stencil otherwise.  Hence the finished
stencil is value-equal to the algebraic expansion of the nested weighted sum
that was contributed. -/
theorem weight_conservation (tbl : WeightTable) (src dst c : Nat) (w : ℚ)
    (hInv : TableInv tbl)
    (hopen : tbl.dests.getLast? = some dst ∨ tbl.sizes.getD dst 0 = 0)
    (husable : src < tbl.coarseVertCount ∨
      tbl.indices.getD src 0 + tbl.sizes.getD src 0 ≤ openStart tbl dst) :
    stencilWeight (tbl.addWithWeightScalar src dst w) dst c =
      stencilWeight tbl dst c + w * resolvedWeight tbl src c := by
  unfold WeightTable.addWithWeightScalar resolvedWeight
  split
  · next hsrc =>
      obtain ⟨e1, _, _, _, _⟩ := mergeScalar_step tbl src dst c w 1 hInv hopen
      rw [e1]
      rcases Classical.em (src = c) with hc | hc
      · simp only [if_pos hc]
      · simp only [if_neg hc]
        ring
  · next hsrc =>
      have hus : tbl.indices.getD src 0 + tbl.sizes.getD src 0 ≤
          openStart tbl dst := by
        rcases husable with h | h
        · exact absurd h hsrc
        · exact h
      rw [resolveLoop_conservation dst c w tbl.sources tbl.weights
        (openStart tbl dst) (tbl.sizes.getD src 0) (tbl.indices.getD src 0) tbl
        hInv hopen hus (Nat.le_refl _) (fun j _ => ⟨rfl, rfl⟩)]
      unfold stencilWeight
      ring

/-- Witness for C2: the spec's example.  With coarse vertices 0, 1, 2,
stencil 3 is `1.0 * v0`, stencil 4 is `0.6 * v1 + 0.4 * v2`; building
destination 5 as `0.5 * (stencil 3) + 0.5 * (stencil 4)`, the final
contribution changes coarse vertex 1's stored weight by
`0.5 * 0.6 = 0.3`. -/
theorem weight_conservation_witness :
    stencilWeight ((((((WeightTable.init 3 true true).addWithWeightScalar 0 3
        1).addWithWeightScalar 1 4 (3/5)).addWithWeightScalar 2 4
        (2/5)).addWithWeightScalar 3 5 (1/2)).addWithWeightScalar 4 5 (1/2)) 5 1 =
      stencilWeight (((((WeightTable.init 3 true true).addWithWeightScalar 0 3
        1).addWithWeightScalar 1 4 (3/5)).addWithWeightScalar 2 4
        (2/5)).addWithWeightScalar 3 5 (1/2)) 5 1 +
      (1/2) * resolvedWeight (((((WeightTable.init 3 true true).addWithWeightScalar
        0 3 1).addWithWeightScalar 1 4 (3/5)).addWithWeightScalar 2 4
        (2/5)).addWithWeightScalar 3 5 (1/2)) 4 1 :=
  weight_conservation _ 4 5 1 (1/2) (by decide) (Or.inl (by decide))
    (Or.inr (by decide))

theorem addDeriv_coarseVertCount (tbl : WeightTable) (src dst : Nat)
    (w : PointDerivWeight) :
    (tbl.addDeriv src dst w).coarseVertCount = tbl.coarseVertCount := by
  rcases Classical.em (tbl.dests.getLast? = some dst) with h | h
  · rw [addDeriv_cont _ _ _ _ h]
  · rw [addDeriv_fresh _ _ _ _ h]

theorem addDeriv_compactWeights (tbl : WeightTable) (src dst : Nat)
    (w : PointDerivWeight) :
    (tbl.addDeriv src dst w).compactWeights = tbl.compactWeights := by
  rcases Classical.em (tbl.dests.getLast? = some dst) with h | h
  · rw [addDeriv_cont _ _ _ _ h]
  · rw [addDeriv_fresh _ _ _ _ h]

/-- Claim C3: with compaction enabled, contributing the same coarse source
twice in succession (nonzero weights `w1`, `w2`) to the destination opened
by the first of the two contributions leaves exactly one entry for that
source, holding `w1 + w2` — the stencil's size is 1, not 2; with compaction
disabled the same two contributions leave two separate entries `w1` and
`w2`, which sum to the same total. -/
theorem compaction_idempotence (tbl : WeightTable) (src dst : Nat) (w1 w2 : ℚ)
    (hsrc : src < tbl.coarseVertCount)
    (hw1 : w1 ≠ 0) (hw2 : w2 ≠ 0)
    (hfresh : tbl.dests.getLast? ≠ some dst)
    (hguard : tbl.destAt tbl.lastOffset ≠ some dst)
    (hszL : tbl.size = tbl.sources.length)
    (hdlen : tbl.dests.length = tbl.sources.length)
    (hwlen : tbl.weights.length = tbl.sources.length)
    (hilen : tbl.indices.length = tbl.sizes.length) :
    (tbl.compactWeights = true →
      (indexAddWithWeight (indexAddWithWeight tbl src dst w1) src dst
        w2).sizes.getD dst 0 = 1 ∧
      (indexAddWithWeight (indexAddWithWeight tbl src dst w1) src dst
        w2).sources = tbl.sources ++ [src] ∧
      (indexAddWithWeight (indexAddWithWeight tbl src dst w1) src dst
        w2).weights = tbl.weights ++ [w1 + w2]) ∧
    (tbl.compactWeights = false →
      (indexAddWithWeight (indexAddWithWeight tbl src dst w1) src dst
        w2).sizes.getD dst 0 = 2 ∧
      (indexAddWithWeight (indexAddWithWeight tbl src dst w1) src dst
        w2).sources = tbl.sources ++ [src, src] ∧
      (indexAddWithWeight (indexAddWithWeight tbl src dst w1) src dst
        w2).weights = tbl.weights ++ [w1, w2]) := by
  have h1 : indexAddWithWeight tbl src dst w1 = tbl.addScalar src dst w1 := by
    unfold indexAddWithWeight
    rw [if_neg hw1]
    unfold WeightTable.addWithWeightScalar
    rw [if_pos hsrc]
    unfold WeightTable.mergeScalar
    rw [if_neg (fun hx => hguard hx.2.2), mul_one]
  have t1s := addScalar_sources tbl src dst w1
  have t1w := addScalar_weights tbl src dst w1
  have t1d := addScalar_dests tbl src dst w1
  have t1size := addScalar_size tbl src dst w1
  have t1cvc := addScalar_coarseVertCount tbl src dst w1
  have t1cw := addScalar_compactWeights tbl src dst w1
  have t1lo : (tbl.addScalar src dst w1).lastOffset =
      (tbl.sources.length : Int) := by
    rw [addScalar_fresh _ _ _ _ hfresh]
  obtain ⟨t1idx, t1szd⟩ := addScalar_fresh_getD tbl src dst w1 hfresh hilen
  have t1back : (tbl.addScalar src dst w1).dests.getLast? = some dst := by
    rw [t1d]
    exact List.getLast?_concat _
  have hsrc1 : src < (tbl.addScalar src dst w1).coarseVertCount := by
    rw [t1cvc]
    exact hsrc
  have h2 : indexAddWithWeight (tbl.addScalar src dst w1) src dst w2 =
      (tbl.addScalar src dst w1).mergeScalar src dst w2 1
        (tbl.addScalar src dst w1).lastOffset (tbl.addScalar src dst w1).size := by
    unfold indexAddWithWeight
    rw [if_neg hw2]
    unfold WeightTable.addWithWeightScalar
    rw [if_pos hsrc1]
  constructor
  · intro hcw
    have hguard2 : (tbl.addScalar src dst w1).compactWeights = true ∧
        (tbl.addScalar src dst w1).dests ≠ [] ∧
        (tbl.addScalar src dst w1).destAt
          (tbl.addScalar src dst w1).lastOffset = some dst := by
      refine ⟨by rw [t1cw]; exact hcw, by rw [t1d]; simp, ?_⟩
      unfold WeightTable.destAt
      rw [t1lo, if_pos (Int.ofNat_nonneg _), t1d, ← hdlen]
      exact List.getElem?_concat_length _ _
    have hscan : scanFrom (tbl.addScalar src dst w1).sources src
        ((tbl.addScalar src dst w1).lastOffset.toNat)
        (tbl.addScalar src dst w1).size = some tbl.sources.length := by
      rw [t1lo, t1size, hszL, t1s]
      unfold scanFrom
      have htn : ((tbl.sources.length : Int)).toNat = tbl.sources.length := rfl
      rw [htn]
      have hone : tbl.sources.length + 1 - tbl.sources.length = 1 := by omega
      rw [hone, List.range'_one]
      simp [List.find?, getD_concat_self]
    rw [h1, h2]
    unfold WeightTable.mergeScalar
    rw [if_pos hguard2, hscan]
    refine ⟨?_, ?_, ?_⟩
    · dsimp only
      exact t1szd
    · dsimp only
      exact t1s
    · dsimp only
      rw [t1w, ← hwlen, getD_concat_self, set_concat_self, mul_one]
  · intro hcw
    have hng : ¬((tbl.addScalar src dst w1).compactWeights = true ∧
        (tbl.addScalar src dst w1).dests ≠ [] ∧
        (tbl.addScalar src dst w1).destAt
          (tbl.addScalar src dst w1).lastOffset = some dst) := by
      intro hx
      rw [t1cw, hcw] at hx
      exact Bool.false_ne_true hx.1
    rw [h1, h2]
    unfold WeightTable.mergeScalar
    rw [if_neg hng]
    rw [addScalar_cont _ _ _ _ t1back]
    have hdlt1 : dst < (tbl.addScalar src dst w1).sizes.length :=
      pos_getD_lt _ _ (by rw [t1szd]; exact Nat.one_pos)
    refine ⟨?_, ?_, ?_⟩
    · dsimp only
      rw [getD_set_self _ _ _ _ hdlt1, t1szd]
    · dsimp only
      rw [t1s, List.append_assoc]
      rfl
    · dsimp only
      rw [t1w, mul_one, List.append_assoc]
      rfl

/-- Witness for C3, exercising both the compacted and the uncompacted
branch on concrete tables. -/
theorem compaction_idempotence_witness :
    ((indexAddWithWeight (indexAddWithWeight (WeightTable.init 1 true true) 0 1
        (1/4)) 0 1 (1/4)).sizes.getD 1 0 = 1 ∧
      (indexAddWithWeight (indexAddWithWeight (WeightTable.init 1 true true) 0 1
        (1/4)) 0 1 (1/4)).sources = (WeightTable.init 1 true true).sources ++ [0] ∧
      (indexAddWithWeight (indexAddWithWeight (WeightTable.init 1 true true) 0 1
        (1/4)) 0 1 (1/4)).weights =
        (WeightTable.init 1 true true).weights ++ [1/4 + 1/4]) ∧
    ((indexAddWithWeight (indexAddWithWeight (WeightTable.init 1 true false) 0 1
        (1/4)) 0 1 (1/4)).sizes.getD 1 0 = 2 ∧
      (indexAddWithWeight (indexAddWithWeight (WeightTable.init 1 true false) 0 1
        (1/4)) 0 1 (1/4)).sources =
        (WeightTable.init 1 true false).sources ++ [0, 0] ∧
      (indexAddWithWeight (indexAddWithWeight (WeightTable.init 1 true false) 0 1
        (1/4)) 0 1 (1/4)).weights =
        (WeightTable.init 1 true false).weights ++ [1/4, 1/4]) :=
  ⟨(compaction_idempotence (WeightTable.init 1 true true) 0 1 (1/4) (1/4)
      (by decide) (by norm_num) (by norm_num) (by decide) (by decide) rfl rfl
      rfl rfl).1 rfl,
    (compaction_idempotence (WeightTable.init 1 true false) 0 1 (1/4) (1/4)
      (by decide) (by norm_num) (by norm_num) (by decide) (by decide) rfl rfl
      rfl rfl).2 rfl⟩

/-- Claim C7: the three derivative channels never cross-contaminate.
Contributing `(weight 0, du 1, dv 0)` and then `(weight 1, du 0, dv 0)` for
the same coarse source through a one-entry external stencil of weight 1,
with compaction enabled and the destination opened by the first
contribution, accumulates to the single entry `(1, 1, 0)`: multiplication
and accumulation act independently per component. -/
theorem deriv_channel_independence (tbl : WeightTable) (s dst : Nat)
    (hs : s < tbl.coarseVertCount)
    (hcomp : tbl.compactWeights = true)
    (hfresh : tbl.dests.getLast? ≠ some dst)
    (hguard : tbl.destAt tbl.lastOffset ≠ some dst)
    (hszL : tbl.size = tbl.sources.length)
    (hdlen : tbl.dests.length = tbl.sources.length)
    (hwlen : tbl.weights.length = tbl.sources.length)
    (hdulen : tbl.duWeights.length = tbl.sources.length)
    (hdvlen : tbl.dvWeights.length = tbl.sources.length)
    (hilen : tbl.indices.length = tbl.sizes.length) :
    (stencilAddWithWeightDeriv (stencilAddWithWeightDeriv tbl ⟨1, [s], [1]⟩ dst
      0 1 0) ⟨1, [s], [1]⟩ dst 1 0 0).sizes.getD dst 0 = 1 ∧
    (stencilAddWithWeightDeriv (stencilAddWithWeightDeriv tbl ⟨1, [s], [1]⟩ dst
      0 1 0) ⟨1, [s], [1]⟩ dst 1 0 0).sources = tbl.sources ++ [s] ∧
    (stencilAddWithWeightDeriv (stencilAddWithWeightDeriv tbl ⟨1, [s], [1]⟩ dst
      0 1 0) ⟨1, [s], [1]⟩ dst 1 0 0).weights = tbl.weights ++ [1] ∧
    (stencilAddWithWeightDeriv (stencilAddWithWeightDeriv tbl ⟨1, [s], [1]⟩ dst
      0 1 0) ⟨1, [s], [1]⟩ dst 1 0 0).duWeights = tbl.duWeights ++ [1] ∧
    (stencilAddWithWeightDeriv (stencilAddWithWeightDeriv tbl ⟨1, [s], [1]⟩ dst
      0 1 0) ⟨1, [s], [1]⟩ dst 1 0 0).dvWeights = tbl.dvWeights ++ [0] := by
  have h1 : stencilAddWithWeightDeriv tbl ⟨1, [s], [1]⟩ dst 0 1 0 =
      tbl.addWithWeightDeriv s dst (pdMul ⟨0, 1, 0⟩ (pdOfScalar 1)) := rfl
  have hq1 : pdMul (pdMul ⟨0, 1, 0⟩ (pdOfScalar 1)) (pdOfScalar 1) =
      (⟨0, 1, 0⟩ : PointDerivWeight) := by
    norm_num [pdMul, pdOfScalar]
  have h2 : tbl.addWithWeightDeriv s dst (pdMul ⟨0, 1, 0⟩ (pdOfScalar 1)) =
      tbl.addDeriv s dst ⟨0, 1, 0⟩ := by
    unfold WeightTable.addWithWeightDeriv
    rw [if_pos hs]
    unfold WeightTable.mergeDeriv
    rw [if_neg (fun hx => hguard hx.2.2), hq1]
  have t1s := addDeriv_sources tbl s dst ⟨0, 1, 0⟩
  have t1w := addDeriv_weights tbl s dst ⟨0, 1, 0⟩
  have t1du := addDeriv_duWeights tbl s dst ⟨0, 1, 0⟩
  have t1dv := addDeriv_dvWeights tbl s dst ⟨0, 1, 0⟩
  have t1d := addDeriv_dests tbl s dst ⟨0, 1, 0⟩
  have t1size := addDeriv_size tbl s dst ⟨0, 1, 0⟩
  have t1cvc := addDeriv_coarseVertCount tbl s dst ⟨0, 1, 0⟩
  have t1cw := addDeriv_compactWeights tbl s dst ⟨0, 1, 0⟩
  have t1lo : (tbl.addDeriv s dst ⟨0, 1, 0⟩).lastOffset =
      (tbl.sources.length : Int) := by
    rw [addDeriv_fresh _ _ _ _ hfresh]
  obtain ⟨t1idx, t1szd⟩ := addDeriv_fresh_getD tbl s dst ⟨0, 1, 0⟩ hfresh hilen
  have hs1 : s < (tbl.addDeriv s dst ⟨0, 1, 0⟩).coarseVertCount := by
    rw [t1cvc]
    exact hs
  have h3 : stencilAddWithWeightDeriv (tbl.addDeriv s dst ⟨0, 1, 0⟩)
      ⟨1, [s], [1]⟩ dst 1 0 0 =
      (tbl.addDeriv s dst ⟨0, 1, 0⟩).addWithWeightDeriv s dst
        (pdMul ⟨1, 0, 0⟩ (pdOfScalar 1)) := rfl
  have hguard2 : (tbl.addDeriv s dst ⟨0, 1, 0⟩).compactWeights = true ∧
      (tbl.addDeriv s dst ⟨0, 1, 0⟩).dests ≠ [] ∧
      (tbl.addDeriv s dst ⟨0, 1, 0⟩).destAt
        (tbl.addDeriv s dst ⟨0, 1, 0⟩).lastOffset = some dst := by
    refine ⟨by rw [t1cw]; exact hcomp, by rw [t1d]; simp, ?_⟩
    unfold WeightTable.destAt
    rw [t1lo, if_pos (Int.ofNat_nonneg _), t1d, ← hdlen]
    exact List.getElem?_concat_length _ _
  have hscan : scanFrom (tbl.addDeriv s dst ⟨0, 1, 0⟩).sources s
      ((tbl.addDeriv s dst ⟨0, 1, 0⟩).lastOffset.toNat)
      (tbl.addDeriv s dst ⟨0, 1, 0⟩).size = some tbl.sources.length := by
    rw [t1lo, t1size, hszL, t1s]
    unfold scanFrom
    have htn : ((tbl.sources.length : Int)).toNat = tbl.sources.length := rfl
    rw [htn]
    have hone : tbl.sources.length + 1 - tbl.sources.length = 1 := by omega
    rw [hone, List.range'_one]
    simp [List.find?, getD_concat_self]
  have h4 : (tbl.addDeriv s dst ⟨0, 1, 0⟩).addWithWeightDeriv s dst
      (pdMul ⟨1, 0, 0⟩ (pdOfScalar 1)) =
      (tbl.addDeriv s dst ⟨0, 1, 0⟩).mergeDeriv s dst
        (pdMul ⟨1, 0, 0⟩ (pdOfScalar 1)) (pdOfScalar 1)
        (tbl.addDeriv s dst ⟨0, 1, 0⟩).lastOffset
        (tbl.addDeriv s dst ⟨0, 1, 0⟩).size := by
    unfold WeightTable.addWithWeightDeriv
    rw [if_pos hs1]
  have hq2 : pdMul (pdMul ⟨1, 0, 0⟩ (pdOfScalar 1)) (pdOfScalar 1) =
      (⟨1, 0, 0⟩ : PointDerivWeight) := by
    norm_num [pdMul, pdOfScalar]
  rw [h1, h2, h3, h4]
  unfold WeightTable.mergeDeriv
  rw [if_pos hguard2, hscan, hq2]
  refine ⟨?_, ?_, ?_, ?_, ?_⟩
  · dsimp only
    exact t1szd
  · dsimp only
    exact t1s
  · dsimp only
    rw [t1w, ← hwlen, getD_concat_self, set_concat_self]
    norm_num
  · dsimp only
    rw [t1du, ← hdulen, getD_concat_self, set_concat_self]
    norm_num
  · dsimp only
    rw [t1dv, ← hdvlen, getD_concat_self, set_concat_self]
    norm_num

/-- Witness for C7 on an initially empty table with one coarse vertex. -/
theorem deriv_channel_independence_witness :
    (stencilAddWithWeightDeriv (stencilAddWithWeightDeriv
      (WeightTable.init 1 false true) ⟨1, [0], [1]⟩ 0 0 1 0) ⟨1, [0], [1]⟩ 0 1 0
      0).sizes.getD 0 0 = 1 ∧
    (stencilAddWithWeightDeriv (stencilAddWithWeightDeriv
      (WeightTable.init 1 false true) ⟨1, [0], [1]⟩ 0 0 1 0) ⟨1, [0], [1]⟩ 0 1 0
      0).sources = (WeightTable.init 1 false true).sources ++ [0] ∧
    (stencilAddWithWeightDeriv (stencilAddWithWeightDeriv
      (WeightTable.init 1 false true) ⟨1, [0], [1]⟩ 0 0 1 0) ⟨1, [0], [1]⟩ 0 1 0
      0).weights = (WeightTable.init 1 false true).weights ++ [1] ∧
    (stencilAddWithWeightDeriv (stencilAddWithWeightDeriv
      (WeightTable.init 1 false true) ⟨1, [0], [1]⟩ 0 0 1 0) ⟨1, [0], [1]⟩ 0 1 0
      0).duWeights = (WeightTable.init 1 false true).duWeights ++ [1] ∧
    (stencilAddWithWeightDeriv (stencilAddWithWeightDeriv
      (WeightTable.init 1 false true) ⟨1, [0], [1]⟩ 0 0 1 0) ⟨1, [0], [1]⟩ 0 1 0
      0).dvWeights = (WeightTable.init 1 false true).dvWeights ++ [0] :=
  deriv_channel_independence (WeightTable.init 1 false true) 0 0 (by decide)
    rfl (by decide) (by decide) rfl rfl rfl rfl rfl rfl
